import Mathlib

/-
  Verification of the two data structures of this repository:
  * `Python/Queue.py`   — a FIFO queue implemented with two stacks;
  * `Python/Segtree.py` — a segment tree over a padded complete binary tree.

  The Python code is embedded shallowly: Python lists become Lean `List`s
  (`list.set` models in-place index assignment, which is always in range in
  the modelled code paths), the `None` padding value becomes `Option.none`,
  and a raised `IndexError` becomes an `Except.error` carrying the message.
-/

/-- Errors raised by the code.  The segment tree only ever raises
`IndexError`; `generic` stands for any other kind of Python exception and is
present so that "the error is an IndexError, not a generic failure" is a
contentful statement. -/
inductive PyError : Type where
  | indexError (msg : String) : PyError
  | generic (msg : String) : PyError
deriving DecidableEq

/-- Does the character list `s` start with `pat`? (substring machinery for
reasoning about error-message contents). -/
def startsL : List Char → List Char → Bool
  | _, [] => true
  | [], _ :: _ => false
  | a :: as, b :: bs => (a = b) && startsL as bs

/-- Does the character list `s` contain `pat` as a contiguous run? -/
def hasSub : List Char → List Char → Bool
  | [], pat => pat.isEmpty
  | a :: t, pat => startsL (a :: t) pat || hasSub t pat

/-- Does string `s` contain `pat` as a substring? -/
def strContains (s pat : String) : Bool := hasSub s.toList pat.toList

theorem startsL_self_append (pat r : List Char) : startsL (pat ++ r) pat = true := by
  induction pat with
  | nil => cases r <;> rfl
  | cons a as ih => simp [startsL, ih]

theorem hasSub_append_left (l : List Char) {s pat : List Char}
    (h : hasSub s pat = true) : hasSub (l ++ s) pat = true := by
  induction l with
  | nil => simpa using h
  | cons a t ih =>
    cases pat with
    | nil => simp [hasSub, startsL]
    | cons b bs => simp [hasSub, Bool.or_eq_true]; right; exact ih

theorem hasSub_of_starts {s pat : List Char} (h : startsL s pat = true) :
    hasSub s pat = true := by
  cases s with
  | nil => cases pat with
    | nil => rfl
    | cons b bs => simp [startsL] at h
  | cons a t => simp [hasSub, h]

/-- A string contains any middle piece of a concatenation. -/
theorem strContains_mid (l pat r : String) :
    strContains (l ++ pat ++ r) pat = true := by
  have h1 : startsL (pat.toList ++ r.toList) pat.toList = true :=
    startsL_self_append _ _
  have h2 : hasSub (pat.toList ++ r.toList) pat.toList = true :=
    hasSub_of_starts h1
  have h3 : hasSub (l.toList ++ (pat.toList ++ r.toList)) pat.toList = true :=
    hasSub_append_left _ h2
  have : (l ++ pat ++ r).toList = l.toList ++ (pat.toList ++ r.toList) := by
    simp [String.toList, String.data_append]
  simpa [strContains, this] using h3

/-- Is an `Except` value an error? -/
def isErr {ε α : Type} : Except ε α → Bool
  | .error _ => true
  | .ok _ => false

/-- The `None`-tolerant wrapper `op_none` that `Segtree.__init__` builds
around the user-supplied join operation: combining with the absent value
yields the other operand. -/
def opN {T : Type} (op : T → T → T) : Option T → Option T → Option T
  | none, none => none
  | none, some b => some b
  | some a, none => some a
  | some a, some b => some (op a b)

theorem opN_none_left {T : Type} (op : T → T → T) (x : Option T) :
    opN op none x = x := by cases x <;> rfl

theorem opN_none_right {T : Type} (op : T → T → T) (x : Option T) :
    opN op x none = x := by cases x <;> rfl

theorem opN_assoc {T : Type} {op : T → T → T}
    (h : ∀ x y z, op (op x y) z = op x (op y z)) :
    ∀ x y z, opN op (opN op x y) z = opN op x (opN op y z) := by
  intro x y z
  cases x <;> cases y <;> cases z <;> simp [opN, h]

/-- Left fold of the `None`-tolerant join over the values `v L, …, v (R-1)`.
This is the aggregate a segment-tree node covering `[L,R)` stores. -/
def rangeJoin {T : Type} (op : Option T → Option T → Option T)
    (v : Nat → Option T) (L R : Nat) : Option T :=
  ((List.range (R - L)).map (fun j => v (L + j))).foldl op none

/-- The left-fold of a join operation over a plain list of values (the
specification's description of what a range query returns). -/
def listJoin {T : Type} (op : T → T → T) : List T → Option T
  | [] => none
  | x :: xs => some (xs.foldl op x)

section FoldLemmas

variable {T : Type} {op : Option T → Option T → Option T}

theorem foldl_op_shift (hl : ∀ x, op none x = x) (hr : ∀ x, op x none = x)
    (ha : ∀ x y z, op (op x y) z = op x (op y z))
    (xs : List (Option T)) (x : Option T) :
    xs.foldl op x = op x (xs.foldl op none) := by
  induction xs generalizing x with
  | nil => simp [hr]
  | cons y ys ih =>
    have h1 : (y :: ys).foldl op x = ys.foldl op (op x y) := rfl
    have h2 : (y :: ys).foldl op none = ys.foldl op y := by
      simp [List.foldl_cons, hl]
    rw [h1, h2, ih (op x y), ih y, ha]

theorem rangeJoin_merge (hl : ∀ x, op none x = x) (hr : ∀ x, op x none = x)
    (ha : ∀ x y z, op (op x y) z = op x (op y z))
    {v : Nat → Option T} {L M R : Nat} (h1 : L ≤ M) (h2 : M ≤ R) :
    rangeJoin op v L R = op (rangeJoin op v L M) (rangeJoin op v M R) := by
  have hsplit : R - L = (M - L) + (R - M) := by omega
  have hrange : List.range (R - L)
      = List.range (M - L) ++ (List.range (R - M)).map (fun j => (M - L) + j) := by
    rw [hsplit, List.range_add]
  have hmap : ((List.range (R - M)).map (fun j => (M - L) + j)).map
        (fun j => v (L + j)) = (List.range (R - M)).map (fun j => v (M + j)) := by
    simp only [List.map_map]
    refine List.map_congr_left ?_
    intro j hj
    have : L + ((M - L) + j) = M + j := by omega
    simp [Function.comp, this]
  unfold rangeJoin
  rw [hrange, List.map_append, hmap, List.foldl_append]
  rw [foldl_op_shift hl hr ha]

theorem rangeJoin_none (hl : ∀ x, op none x = x)
    {v : Nat → Option T} {L R : Nat}
    (h : ∀ p, L ≤ p → v p = none) : rangeJoin op v L R = none := by
  unfold rangeJoin
  have hgen : ∀ js : List Nat, (∀ j ∈ js, v (L + j) = none) →
      (js.map (fun j => v (L + j))).foldl op none = none := by
    intro js
    induction js with
    | nil => intro _; rfl
    | cons j t ih =>
      intro hall
      have hj : v (L + j) = none := hall j (by simp)
      simp only [List.map_cons, List.foldl_cons, hj, hl]
      exact ih (fun x hx => hall x (by simp [hx]))
  exact hgen _ (fun j _ => h (L + j) (by omega))

theorem rangeJoin_empty {v : Nat → Option T} {L R : Nat} (h : R ≤ L) :
    rangeJoin op v L R = none := by
  unfold rangeJoin
  have : R - L = 0 := by omega
  simp [this]

theorem rangeJoin_single (hl : ∀ x, op none x = x) (v : Nat → Option T) (L : Nat) :
    rangeJoin op v L (L + 1) = v L := by
  unfold rangeJoin
  rw [show L + 1 - L = 1 by omega]
  have h1 : List.range 1 = [0] := rfl
  simp [h1, hl]

/-- Clamping the right end of a range at `n` changes nothing when every
value from `n` on is absent. -/
theorem rangeJoin_clamp (hl : ∀ x, op none x = x) (hr : ∀ x, op x none = x)
    (ha : ∀ x y z, op (op x y) z = op x (op y z))
    {v : Nat → Option T} {n L R : Nat}
    (hv : ∀ p, n ≤ p → v p = none) :
    rangeJoin op v L R = rangeJoin op v L (min R n) := by
  by_cases hc : R ≤ n
  · have : min R n = R := by omega
    rw [this]
  · have hm : min R n = n := by omega
    rw [hm]
    by_cases hL : L ≤ n
    · rw [rangeJoin_merge hl hr ha hL (by omega : n ≤ R)]
      rw [rangeJoin_none hl (fun p hp => hv p hp)]
      exact hr _
    · rw [rangeJoin_none hl (fun p hp => hv p (by omega)),
        rangeJoin_empty (by omega)]

end FoldLemmas

/-- The while-loop of `Segtree._ceil_log_2`: shifts right until the value is at
most 1, counting shifts and tracking whether every shifted-off bit was 0. -/
def ceil_log_2_go (n : Nat) : Nat × Bool :=
  if h : n > 1 then
    let r := ceil_log_2_go (n / 2)
    (r.1 + 1, r.2 && decide (n % 2 = 0))
  else (0, true)
termination_by n
decreasing_by exact Nat.div_lt_self (by omega) (by omega)

/-- Model of `Segtree._ceil_log_2`: `ceil(log2(n))`, adding one extra step when `n`
is not an exact power of two. -/
def ceil_log_2 (n : Nat) : Nat :=
  let r := ceil_log_2_go n
  if r.2 then r.1 else r.1 + 1

theorem ceil_log_2_go_spec (n : Nat) (h : 1 ≤ n) :
    2 ^ (ceil_log_2_go n).1 ≤ n ∧ n < 2 ^ ((ceil_log_2_go n).1 + 1) ∧
      ((ceil_log_2_go n).2 = true ↔ n = 2 ^ (ceil_log_2_go n).1) := by
  induction n using Nat.strong_induction_on with
  | _ n ih =>
    by_cases hn : n > 1
    · have hrec := ih (n / 2) (Nat.div_lt_self (by omega) (by omega))
        (Nat.one_le_div_iff (by omega) |>.mpr (by omega))
      obtain ⟨hlo, hhi, hex⟩ := hrec
      rw [ceil_log_2_go]
      simp only [hn, dite_true]
      constructor
      · simp only [pow_succ]
        omega
      constructor
      · simp only [pow_succ]
        omega
      · simp only [Bool.and_eq_true, decide_eq_true_eq, pow_succ]
        constructor
        · rintro ⟨he, hm⟩
          have := hex.mp he
          omega
        · intro hw
          have h2 : n % 2 = 0 := by omega
          refine ⟨hex.mpr (by omega), h2⟩
    · have hn1 : n = 1 := by omega
      subst hn1
      have hgo : ceil_log_2_go 1 = (0, true) := by
        rw [ceil_log_2_go]; norm_num
      rw [hgo]
      norm_num

/-- For `n ≥ 1`, `2 ^ ceil_log_2 n` is at least `n` and below `2n`:
it is the least power of two that is `≥ n`. -/
theorem ceil_log_2_spec (n : Nat) (h : 1 ≤ n) :
    n ≤ 2 ^ ceil_log_2 n ∧ 2 ^ ceil_log_2 n < 2 * n := by
  obtain ⟨hlo, hhi, hex⟩ := ceil_log_2_go_spec n h
  unfold ceil_log_2
  by_cases he : (ceil_log_2_go n).2 = true
  · have := hex.mp he
    simp only [he, if_true]
    omega
  · have hne : ¬ n = 2 ^ (ceil_log_2_go n).1 := fun hw => he (hex.mpr hw)
    rw [if_neg he]
    simp only [pow_succ]
    omega

theorem ceil_log_2_zero : ceil_log_2 0 = 0 := by
  rw [ceil_log_2, ceil_log_2_go]
  simp

theorem ceil_log_2_eq_clog (n : Nat) (h : 1 ≤ n) :
    ceil_log_2 n = Nat.clog 2 n := by
  obtain ⟨hlo, hhi⟩ := ceil_log_2_spec n h
  have h1 : Nat.clog 2 n ≤ ceil_log_2 n :=
    (Nat.le_pow_iff_clog_le (by norm_num)).mp hlo
  have h2 : n ≤ 2 ^ Nat.clog 2 n := Nat.le_pow_clog (by norm_num) n
  have h3 : (2:Nat) ^ ceil_log_2 n < 2 ^ (Nat.clog 2 n + 1) := by
    calc (2:Nat) ^ ceil_log_2 n < 2 * n := hhi
    _ ≤ 2 * 2 ^ Nat.clog 2 n := by omega
    _ = 2 ^ (Nat.clog 2 n + 1) := by ring
  have h4 : ceil_log_2 n < Nat.clog 2 n + 1 :=
    (Nat.pow_lt_pow_iff_right (by norm_num)).mp h3
  omega

/-! ### Small `List.getD` helpers used throughout -/

theorem getD_set_ne {α : Type} (s : List α) (i j : Nat) (x d : α) (h : j ≠ i) :
    (s.set i x).getD j d = s.getD j d := by
  simp [List.getD_eq_getElem?_getD, List.getElem?_set_ne (fun he => h he.symm)]

theorem getD_set_self {α : Type} (s : List α) (i : Nat) (x d : α)
    (h : i < s.length) : (s.set i x).getD i d = x := by
  simp [List.getD_eq_getElem?_getD, List.getElem?_set_self h]

theorem getD_replicate {α : Type} (n j : Nat) (x d : α) :
    (List.replicate n x).getD j d = if j < n then x else d := by
  by_cases h : j < n
  · simp [List.getD_eq_getElem?_getD, List.getElem?_replicate, h]
  · simp [List.getD_eq_getElem?_getD, List.getElem?_replicate, h]

/-! ### The three loops of `Segtree`, as recursive functions

`initLeaves` is the loop `for i in range(n): arr[i + k-1] = g(i, a[i])` that
fills the leaf layer (used for both `seg` and `span`), `buildUp` is the
bottom-up loop `for i in range(k-2, -1, -1): arr[i] = f(arr[2i+1], arr[2i+2])`,
and `updUp` is `update`'s walk `while i > 0: i = (i-1)//2; seg[i] = op(...)`. -/

def initLeaves {α β : Type} (km1 : Nat) (g : Nat → α → β) :
    Nat → List α → List β → List β
  | _, [], s => s
  | i, x :: xs, s => initLeaves km1 g (i + 1) xs (s.set (i + km1) (g i x))

def buildUp {β : Type} (f : β → β → β) (d : β) : Nat → List β → List β
  | 0, s => s
  | c + 1, s =>
    buildUp f d c (s.set c (f (s.getD (2 * c + 1) d) (s.getD (2 * c + 2) d)))

def updUp {T : Type} (op : Option T → Option T → Option T)
    (s : List (Option T)) (i : Nat) : List (Option T) :=
  if i = 0 then s
  else
    updUp op
      (s.set ((i - 1) / 2)
        (op (s.getD (2 * ((i - 1) / 2) + 1) none)
            (s.getD (2 * ((i - 1) / 2) + 2) none)))
      ((i - 1) / 2)
termination_by i
decreasing_by
  rename_i h
  omega

/-- The chain of strict ancestors of node `i` in the heap layout
(`(i-1)/2`, then its parent, and so on up to the root). -/
def parChain (i : Nat) : List Nat :=
  if i = 0 then [] else (i - 1) / 2 :: parChain ((i - 1) / 2)
termination_by i
decreasing_by
  rename_i h
  omega

theorem initLeaves_length {α β : Type} (km1 : Nat) (g : Nat → α → β)
    (a : List α) (i : Nat) (s : List β) :
    (initLeaves km1 g i a s).length = s.length := by
  induction a generalizing i s with
  | nil => rfl
  | cons x xs ih => simp [initLeaves, ih]

theorem initLeaves_getD {α β : Type} (km1 : Nat) (g : Nat → α → β) (d : β) :
    ∀ (a : List α) (i : Nat) (s : List β), i + km1 + a.length ≤ s.length →
    ∀ j : Nat,
    (initLeaves km1 g i a s).getD j d =
      if i + km1 ≤ j ∧ j < i + km1 + a.length
      then ((a[j - km1 - i]?).map (g (j - km1))).getD d
      else s.getD j d := by
  intro a
  induction a with
  | nil =>
    intro i s _ j
    simp only [initLeaves, List.length_nil, Nat.add_zero]
    rw [if_neg (by omega)]
  | cons x xs ih =>
    intro i s hlen j
    simp only [initLeaves]
    rw [ih (i + 1) _ (by simp only [List.length_set]; simp at hlen; omega) j]
    by_cases hj : i + 1 + km1 ≤ j ∧ j < i + 1 + km1 + xs.length
    · rw [if_pos hj, if_pos (by simp only [List.length_cons]; omega)]
      have hd : j - km1 - i = (j - km1 - (i + 1)) + 1 := by omega
      rw [hd, List.getElem?_cons_succ]
    · rw [if_neg hj]
      by_cases hje : j = i + km1
      · subst hje
        rw [if_pos (by simp only [List.length_cons]; omega)]
        have hd : i + km1 - km1 - i = 0 := by omega
        have hd2 : i + km1 - km1 = i := by omega
        rw [getD_set_self _ _ _ _ (by simp only [List.length_cons] at hlen; omega)]
        rw [hd, hd2, List.getElem?_cons_zero]
        rfl
      · rw [if_neg (by simp only [List.length_cons]; omega)]
        exact getD_set_ne _ _ _ _ _ hje

theorem buildUp_length {β : Type} (f : β → β → β) (d : β) (c : Nat) (s : List β) :
    (buildUp f d c s).length = s.length := by
  induction c generalizing s with
  | zero => rfl
  | succ c ih => simp [buildUp, ih]

theorem buildUp_getD_high {β : Type} (f : β → β → β) (d : β) (c : Nat)
    (s : List β) (j : Nat) (h : c ≤ j) :
    (buildUp f d c s).getD j d = s.getD j d := by
  induction c generalizing s with
  | zero => rfl
  | succ c ih =>
    simp only [buildUp]
    rw [ih _ (by omega), getD_set_ne _ _ _ _ _ (by omega)]

theorem buildUp_getD_low {β : Type} (f : β → β → β) (d : β) :
    ∀ (c : Nat) (s : List β), c ≤ s.length → ∀ j, j < c →
      (buildUp f d c s).getD j d =
        f ((buildUp f d c s).getD (2 * j + 1) d)
          ((buildUp f d c s).getD (2 * j + 2) d) := by
  intro c
  induction c with
  | zero => intro s _ j hj; omega
  | succ c ih =>
    intro s hc j hj
    simp only [buildUp]
    by_cases hjc : j < c
    · exact ih _ (by simp only [List.length_set]; omega) j hjc
    · have hjc2 : j = c := by omega
      subst hjc2
      rw [buildUp_getD_high _ _ _ _ _ (Nat.le_refl j)]
      rw [buildUp_getD_high _ _ _ _ (2 * j + 1) (by omega)]
      rw [buildUp_getD_high _ _ _ _ (2 * j + 2) (by omega)]
      rw [getD_set_self _ _ _ _ (by omega)]
      rw [getD_set_ne _ _ _ _ _ (by omega), getD_set_ne _ _ _ _ _ (by omega)]

theorem updUp_length {T : Type} (op : Option T → Option T → Option T) :
    ∀ (i : Nat) (s : List (Option T)), (updUp op s i).length = s.length := by
  intro i
  induction i using Nat.strong_induction_on with
  | _ i ih =>
    intro s
    by_cases hi : i = 0
    · rw [updUp, if_pos hi]
    · rw [updUp, if_neg hi]
      rw [ih _ (by omega)]
      simp

theorem parChain_lt : ∀ i : Nat, ∀ j ∈ parChain i, j < i := by
  intro i
  induction i using Nat.strong_induction_on with
  | _ i ih =>
    intro j hj
    by_cases hi : i = 0
    · rw [parChain, if_pos hi] at hj
      simp at hj
    · rw [parChain, if_neg hi] at hj
      rcases List.mem_cons.mp hj with he | hm
      · omega
      · have := ih ((i - 1) / 2) (by omega) j hm
        omega

theorem parChain_closed : ∀ i : Nat, ∀ c ∈ parChain i, c ≠ 0 →
    (c - 1) / 2 ∈ parChain i := by
  intro i
  induction i using Nat.strong_induction_on with
  | _ i ih =>
    intro c hc hc0
    by_cases hi : i = 0
    · rw [parChain, if_pos hi] at hc
      simp at hc
    · rw [parChain, if_neg hi] at hc ⊢
      rcases List.mem_cons.mp hc with he | hm
      · subst he
        exact List.mem_cons_of_mem _
          (by rw [parChain, if_neg hc0]; exact List.mem_cons_self _ _)
      · exact List.mem_cons_of_mem _ (ih _ (by omega) c hm hc0)

theorem parChain_head (i : Nat) (h : i ≠ 0) : (i - 1) / 2 ∈ parChain i := by
  rw [parChain, if_neg h]
  exact List.mem_cons_self _ _

/-- Every strict ancestor of a node `i ≤ 2c` has index below `c`
(used with `c = k-1`: ancestors of any node are internal nodes). -/
theorem parChain_bound : ∀ i c : Nat, i ≤ 2 * c → ∀ j ∈ parChain i, j < c := by
  intro i
  induction i using Nat.strong_induction_on with
  | _ i ih =>
    intro c hc j hj
    by_cases hi : i = 0
    · rw [parChain, if_pos hi] at hj
      simp at hj
    · rw [parChain, if_neg hi] at hj
      rcases List.mem_cons.mp hj with he | hm
      · omega
      · have hp : (i - 1) / 2 < c := by omega
        exact ih ((i - 1) / 2) (by omega) c (by omega) j hm

/-- Lemma: `updUp` leaves every node that is not a strict ancestor of `i` alone. -/
theorem updUp_getD_out {T : Type} (op : Option T → Option T → Option T) :
    ∀ (i : Nat) (s : List (Option T)) (j : Nat), j ∉ parChain i →
      (updUp op s i).getD j none = s.getD j none := by
  intro i
  induction i using Nat.strong_induction_on with
  | _ i ih =>
    intro s j hj
    by_cases hi : i = 0
    · rw [updUp, if_pos hi]
    · rw [updUp, if_neg hi]
      rw [parChain, if_neg hi] at hj
      simp only [List.mem_cons, not_or] at hj
      rw [ih _ (by omega) _ _ hj.2]
      exact getD_set_ne _ _ _ _ _ hj.1

/-- After `updUp`, every strict ancestor of `i` stores the join of its two
children's final values. -/
theorem updUp_getD_par {T : Type} (op : Option T → Option T → Option T) :
    ∀ (i : Nat) (s : List (Option T)), i ≤ s.length → ∀ q ∈ parChain i,
      (updUp op s i).getD q none =
        op ((updUp op s i).getD (2 * q + 1) none)
          ((updUp op s i).getD (2 * q + 2) none) := by
  intro i
  induction i using Nat.strong_induction_on with
  | _ i ih =>
    intro s hlen q hq
    by_cases hi : i = 0
    · rw [parChain, if_pos hi] at hq
      simp at hq
    · rw [parChain, if_neg hi] at hq
      rw [updUp, if_neg hi]
      rcases List.mem_cons.mp hq with he | hm
      · subst he
        set p := (i - 1) / 2 with hp
        set s' := s.set p (op (s.getD (2 * p + 1) none) (s.getD (2 * p + 2) none))
          with hs'
        have hout : ∀ m : Nat, p ≤ m →
            (updUp op s' p).getD m none = s'.getD m none := by
          intro m hmle
          refine updUp_getD_out op p s' m (fun hmem => ?_)
          have := parChain_lt p m hmem
          omega
        rw [hout p (Nat.le_refl p), hout (2 * p + 1) (by omega),
          hout (2 * p + 2) (by omega)]
        rw [getD_set_self _ _ _ _ (by omega)]
        rw [getD_set_ne _ _ _ _ _ (by omega), getD_set_ne _ _ _ _ _ (by omega)]
      · exact ih _ (by omega) _ (by simp only [List.length_set]; omega) q hm

/-! ### The `Segtree` class -/

/-- The instance state of a `Segtree` object: `n` elements, the
`None`-tolerant join `op`, the node array `seg`, the interval array `span`
(half-open `[L,R)` stored as a pair), and `l = len(seg)`. -/
structure Segtree (T : Type) where
  n : Nat
  op : Option T → Option T → Option T
  seg : List (Option T)
  span : List (Nat × Nat)
  l : Nat

/-- Message of the `IndexError` raised by `Segtree.query`. -/
def queryMsg (L R : Int) (n : Nat) : String :=
  "[L,R] = [" ++ toString L ++ "," ++ toString R ++
    "] but segtree only has " ++ toString n ++ " elements"

/-- Message of the `IndexError` raised by `Segtree.update` and
`Segtree.get` (it carries the index but not the size). -/
def indexMsg (ind : Int) : String :=
  "Getting from index out of range: ind = " ++ toString ind

/-- Model of `Segtree.__init__`: pad to `k = 2^ceil_log_2(n)` leaves, place the
elements and their singleton intervals at the leaves, then fill the
internal nodes bottom-up. -/
def Segtree.build {T : Type} (a : List T) (op : T → T → T) : Segtree T :=
  let n := a.length
  let opn := opN op
  let k := 2 ^ ceil_log_2 n
  let l := 2 * k - 1
  let seg0 : List (Option T) := List.replicate l none
  let span0 : List (Nat × Nat) := List.replicate l (n, n)
  let seg1 := initLeaves (k - 1) (fun _ x => some x) 0 a seg0
  let span1 := initLeaves (k - 1) (fun i _ => (i, i + 1)) 0 a span0
  let seg := buildUp opn none (k - 1) seg1
  let span := buildUp (fun p q => (p.1, q.2)) (n, n) (k - 1) span1
  ⟨n, opn, seg, span, l⟩

/-- Model of `Segtree._help_me_query`, with an explicit recursion-depth budget
`fuel` (the recursion of the Python helper descends one tree level per
call; callers pass `l`, far above the tree height). -/
def helpQuery {T : Type} (st : Segtree T) : Nat → Nat → Nat → Nat → Option T
  | 0, _, _, _ => none
  | fuel + 1, L, R, i =>
    -- L_0 and R_0 are the ends of span[i]; m is the border span[2i+1][1]
    if L = (st.span.getD i (st.n, st.n)).1 ∧ R = (st.span.getD i (st.n, st.n)).2
    then st.seg.getD i none
    else
      if R ≤ (st.span.getD (2 * i + 1) (st.n, st.n)).2
      then helpQuery st fuel L R (2 * i + 1)
      else if (st.span.getD (2 * i + 1) (st.n, st.n)).2 ≤ L
      then helpQuery st fuel L R (2 * i + 2)
      else
        st.op
          (helpQuery st fuel L (st.span.getD (2 * i + 1) (st.n, st.n)).2
            (2 * i + 1))
          (helpQuery st fuel (st.span.getD (2 * i + 1) (st.n, st.n)).2 R
            (2 * i + 2))

/-- Model of `Segtree.query`: validate `0 ≤ L < R ≤ n`, then run the recursive
range decomposition from the root. -/
def Segtree.query {T : Type} (st : Segtree T) (L R : Int) :
    Except PyError (Option T) :=
  if L < 0 ∨ R > (st.n : Int) ∨ L ≥ R then
    .error (.indexError (queryMsg L R st.n))
  else .ok (helpQuery st st.l L.toNat R.toNat 0)

/-- Model of `Segtree.update`: validate the index, normalize a negative index,
overwrite the leaf, and recompute every ancestor.  The error case carries
the object's state at raise time (the check precedes every mutation). -/
def Segtree.update {T : Type} (st : Segtree T) (ind : Int) (val : T) :
    Except (PyError × Segtree T) (Segtree T) :=
  if ind ≥ (st.n : Int) ∨ ind < -(st.n : Int) then
    .error (.indexError (indexMsg ind), st)
  else
    -- normalize a negative index, write leaf `l//2 + ind`, walk to the root;
    -- only `seg` changes
    .ok ⟨st.n, st.op,
      updUp st.op
        (st.seg.set (st.l / 2 + (if ind < 0 then ind + st.n else ind).toNat)
          (some val))
        (st.l / 2 + (if ind < 0 then ind + st.n else ind).toNat),
      st.span, st.l⟩

/-- Model of `Segtree.get`: validate the index, normalize a negative index, and
read the leaf directly. -/
def Segtree.get {T : Type} (st : Segtree T) (ind : Int) :
    Except PyError (Option T) :=
  if ind ≥ (st.n : Int) ∨ ind < -(st.n : Int) then
    .error (.indexError (indexMsg ind))
  else
    .ok (st.seg.getD
      (st.l / 2 + (if ind < 0 then ind + st.n else ind).toNat) none)

/-- Model of `Segtree.arr`: the slice `seg[l//2 : l//2 + n]` of the leaf layer. -/
def Segtree.arr {T : Type} (st : Segtree T) : List (Option T) :=
  (st.seg.drop (st.l / 2)).take st.n

/-! ### Shape of the padded complete binary tree

`IsNode e i lo h` says: in a perfect tree with `2^e` leaves, node `i` is at
height `h` and its subtree covers leaf positions `[lo, lo + 2^h)`. -/

inductive IsNode (e : Nat) : Nat → Nat → Nat → Prop where
  | root : IsNode e 0 0 e
  | left {i lo h} : IsNode e i lo (h + 1) → IsNode e (2 * i + 1) lo h
  | right {i lo h} : IsNode e i lo (h + 1) → IsNode e (2 * i + 2) (lo + 2 ^ h) h

theorem IsNode.char {e i lo h : Nat} (hn : IsNode e i lo h) :
    ∃ q, lo = q * 2 ^ h ∧ i + 1 = 2 ^ (e - h) + q ∧
      lo + 2 ^ h ≤ 2 ^ e ∧ h ≤ e := by
  induction hn with
  | root =>
    exact ⟨0, by simp, by simp [Nat.sub_self], by simp, Nat.le_refl e⟩
  | left _ ih =>
    rename_i i lo h _
    obtain ⟨q, hq1, hq2, hq3, hq4⟩ := ih
    have hp : (2:Nat) ^ (h + 1) = 2 * 2 ^ h := by rw [pow_succ]; ring
    have h5 : (2:Nat) ^ (e - h) = 2 * 2 ^ (e - (h + 1)) := by
      rw [show e - h = (e - (h + 1)) + 1 by omega, pow_succ]; ring
    refine ⟨2 * q, ?_, ?_, ?_, ?_⟩
    · rw [hq1, hp]; ring
    · omega
    · omega
    · omega
  | right _ ih =>
    rename_i i lo h _
    obtain ⟨q, hq1, hq2, hq3, hq4⟩ := ih
    have hp : (2:Nat) ^ (h + 1) = 2 * 2 ^ h := by rw [pow_succ]; ring
    have h5 : (2:Nat) ^ (e - h) = 2 * 2 ^ (e - (h + 1)) := by
      rw [show e - h = (e - (h + 1)) + 1 by omega, pow_succ]; ring
    refine ⟨2 * q + 1, ?_, ?_, ?_, ?_⟩
    · rw [hq1, hp]; ring
    · omega
    · omega
    · omega

/-- A leaf of the shape relation is exactly `2^e - 1 + lo`. -/
theorem IsNode.leaf_index {e i lo : Nat} (hn : IsNode e i lo 0) :
    i = 2 ^ e - 1 + lo ∧ lo < 2 ^ e := by
  obtain ⟨q, hq1, hq2, hq3, _⟩ := hn.char
  have he : (0:Nat) < 2 ^ e := Nat.pos_pow_of_pos e (by omega)
  simp only [pow_zero, Nat.sub_zero, mul_one] at hq1 hq2 hq3
  omega

/-- An inner node of the shape relation has index below `2^e - 1`. -/
theorem IsNode.inner_index {e i lo h : Nat} (hn : IsNode e i lo (h + 1)) :
    i < 2 ^ e - 1 := by
  obtain ⟨q, hq1, hq2, hq3, hq4⟩ := hn.char
  have hpe : (2:Nat) ^ (e - (h + 1)) * 2 ^ (h + 1) = 2 ^ e := by
    rw [← pow_add]; congr 1; omega
  have h1 : (q + 1) * 2 ^ (h + 1) = lo + 2 ^ (h + 1) := by
    rw [hq1]; ring
  have h2 : (q + 1) * 2 ^ (h + 1) ≤ 2 ^ (e - (h + 1)) * 2 ^ (h + 1) := by
    rw [hpe, h1]; exact hq3
  have h3 : q + 1 ≤ 2 ^ (e - (h + 1)) :=
    Nat.le_of_mul_le_mul_right h2 (Nat.pos_pow_of_pos _ (by omega))
  have h4 : (2:Nat) ^ (e - (h + 1)) * 2 ≤ 2 ^ e := by
    calc (2:Nat) ^ (e - (h + 1)) * 2 = 2 ^ (e - (h + 1) + 1) := by rw [pow_succ]
    _ ≤ 2 ^ e := Nat.pow_le_pow_right (by omega) (by omega)
  omega

/-! ### The seg/span invariants, by height -/

/-- Invariant `SegOk op v seg i lo h`: in the subtree of node `i` (height `h`,
covering `[lo, lo+2^h)`), each leaf stores `v` of its position and each
inner node stores the join of its children. -/
def SegOk {T : Type} (op : Option T → Option T → Option T)
    (v : Nat → Option T) (seg : List (Option T)) : Nat → Nat → Nat → Prop
  | i, lo, 0 => seg.getD i none = v lo
  | i, lo, h + 1 =>
    seg.getD i none = op (seg.getD (2 * i + 1) none) (seg.getD (2 * i + 2) none)
      ∧ SegOk op v seg (2 * i + 1) lo h
      ∧ SegOk op v seg (2 * i + 2) (lo + 2 ^ h) h

/-- Invariant `SpanOk n span i lo h`: in the subtree of node `i`, each in-range leaf
stores its singleton interval (out-of-range leaves keep `[n,n)`), and each
inner node stores `[left.L, right.R)`. -/
def SpanOk (n : Nat) (span : List (Nat × Nat)) : Nat → Nat → Nat → Prop
  | i, lo, 0 =>
    span.getD i (n, n) = if lo < n then (lo, lo + 1) else (n, n)
  | i, lo, h + 1 =>
    span.getD i (n, n) =
        ((span.getD (2 * i + 1) (n, n)).1, (span.getD (2 * i + 2) (n, n)).2)
      ∧ SpanOk n span (2 * i + 1) lo h
      ∧ SpanOk n span (2 * i + 2) (lo + 2 ^ h) h

theorem segOk_val {T : Type} {op : Option T → Option T → Option T}
    (hl : ∀ x, op none x = x) (hr : ∀ x, op x none = x)
    (ha : ∀ x y z, op (op x y) z = op x (op y z))
    {v : Nat → Option T} {seg : List (Option T)} :
    ∀ {h i lo}, SegOk op v seg i lo h →
      seg.getD i none = rangeJoin op v lo (lo + 2 ^ h) := by
  intro h
  induction h with
  | zero =>
    intro i lo hok
    rw [pow_zero, rangeJoin_single hl]
    exact hok
  | succ h ih =>
    intro i lo hok
    obtain ⟨heq, hL, hR⟩ := hok
    rw [heq, ih hL, ih hR]
    rw [← rangeJoin_merge hl hr ha (Nat.le_add_right lo (2 ^ h))
      (Nat.le_add_right (lo + 2 ^ h) (2 ^ h))]
    congr 1
    rw [pow_succ]
    ring

theorem spanOk_val {n : Nat} {span : List (Nat × Nat)} :
    ∀ {h i lo}, SpanOk n span i lo h →
      span.getD i (n, n) = (min lo n, min (lo + 2 ^ h) n) := by
  intro h
  induction h with
  | zero =>
    intro i lo hok
    rw [hok]
    by_cases hlo : lo < n
    · rw [if_pos hlo]
      have h1 : min lo n = lo := by omega
      have h2 : min (lo + 2 ^ 0) n = lo + 1 := by simp; omega
      rw [h1, h2]
    · rw [if_neg hlo]
      have h1 : min lo n = n := by omega
      have h2 : min (lo + 2 ^ 0) n = n := by simp; omega
      rw [h1, h2]
  | succ h ih =>
    intro i lo hok
    obtain ⟨heq, hL, hR⟩ := hok
    rw [heq, ih hL, ih hR]
    have h2 : lo + 2 ^ h + 2 ^ h = lo + 2 ^ (h + 1) := by
      rw [pow_succ]; ring_nf
    simp only [h2]

/-- If an array satisfies the leaf formula and the inner-node recurrence
pointwise, then `SegOk` holds at every node of the tree shape. -/
theorem segOk_of_pointwise {T : Type} {op : Option T → Option T → Option T}
    {v : Nat → Option T} {seg : List (Option T)} {e : Nat}
    (hrec : ∀ j, j < 2 ^ e - 1 →
      seg.getD j none = op (seg.getD (2 * j + 1) none) (seg.getD (2 * j + 2) none))
    (hleaf : ∀ p, p < 2 ^ e → seg.getD (2 ^ e - 1 + p) none = v p) :
    ∀ {h i lo}, IsNode e i lo h → SegOk op v seg i lo h := by
  intro h
  induction h with
  | zero =>
    intro i lo hn
    obtain ⟨hi, hlo⟩ := hn.leaf_index
    show seg.getD i none = v lo
    rw [hi]
    exact hleaf lo hlo
  | succ h ih =>
    intro i lo hn
    refine ⟨hrec i hn.inner_index, ih (IsNode.left hn), ih (IsNode.right hn)⟩

/-- Same as `segOk_of_pointwise` for the `span` array. -/
theorem spanOk_of_pointwise {n : Nat} {span : List (Nat × Nat)} {e : Nat}
    (hrec : ∀ j, j < 2 ^ e - 1 →
      span.getD j (n, n) =
        ((span.getD (2 * j + 1) (n, n)).1, (span.getD (2 * j + 2) (n, n)).2))
    (hleaf : ∀ p, p < 2 ^ e →
      span.getD (2 ^ e - 1 + p) (n, n) = if p < n then (p, p + 1) else (n, n)) :
    ∀ {h i lo}, IsNode e i lo h → SpanOk n span i lo h := by
  intro h
  induction h with
  | zero =>
    intro i lo hn
    obtain ⟨hi, hlo⟩ := hn.leaf_index
    show span.getD i (n, n) = _
    rw [hi]
    exact hleaf lo hlo
  | succ h ih =>
    intro i lo hn
    refine ⟨hrec i hn.inner_index, ih (IsNode.left hn), ih (IsNode.right hn)⟩

/-! ### Characterization of the freshly built tree -/

/-- Fact: `n ≤ 2 ^ ceil_log_2 n` for every `n` (trivially for `n = 0`). -/
theorem n_le_pow_ceil (n : Nat) : n ≤ 2 ^ ceil_log_2 n := by
  rcases Nat.eq_zero_or_pos n with h0 | h1
  · subst h0; exact Nat.zero_le _
  · exact (ceil_log_2_spec n h1).1

theorem build_n {T : Type} (a : List T) (op : T → T → T) :
    (Segtree.build a op).n = a.length := rfl

theorem build_op {T : Type} (a : List T) (op : T → T → T) :
    (Segtree.build a op).op = opN op := rfl

theorem build_l {T : Type} (a : List T) (op : T → T → T) :
    (Segtree.build a op).l = 2 * 2 ^ ceil_log_2 a.length - 1 := rfl

theorem build_seg_length {T : Type} (a : List T) (op : T → T → T) :
    (Segtree.build a op).seg.length = 2 * 2 ^ ceil_log_2 a.length - 1 := by
  show (buildUp _ _ _ _).length = _
  rw [buildUp_length, initLeaves_length, List.length_replicate]

theorem build_span_length {T : Type} (a : List T) (op : T → T → T) :
    (Segtree.build a op).span.length = 2 * 2 ^ ceil_log_2 a.length - 1 := by
  show (buildUp _ _ _ _).length = _
  rw [buildUp_length, initLeaves_length, List.length_replicate]

theorem build_seg_leaf {T : Type} (a : List T) (op : T → T → T)
    (p : Nat) (hp : p < 2 ^ ceil_log_2 a.length) :
    (Segtree.build a op).seg.getD (2 ^ ceil_log_2 a.length - 1 + p) none
      = a[p]? := by
  have hK : (0:Nat) < 2 ^ ceil_log_2 a.length := Nat.pos_pow_of_pos _ (by omega)
  have hn : a.length ≤ 2 ^ ceil_log_2 a.length := n_le_pow_ceil a.length
  show (buildUp (opN op) none (2 ^ ceil_log_2 a.length - 1) _).getD _ none = _
  rw [buildUp_getD_high _ _ _ _ _ (by omega)]
  rw [initLeaves_getD _ _ _ a 0 _
    (by rw [List.length_replicate]; omega)]
  by_cases hpn : p < a.length
  · rw [if_pos (by constructor <;> omega)]
    have hidx : 2 ^ ceil_log_2 a.length - 1 + p
        - (2 ^ ceil_log_2 a.length - 1) - 0 = p := by omega
    rw [hidx]
    obtain ⟨x, hx⟩ : ∃ x, a[p]? = some x :=
      ⟨a[p], List.getElem?_eq_getElem hpn⟩
    rw [hx]
    rfl
  · rw [if_neg (by omega)]
    rw [getD_replicate, if_pos (by omega)]
    rw [List.getElem?_eq_none (by omega)]

theorem build_seg_rec {T : Type} (a : List T) (op : T → T → T)
    (j : Nat) (hj : j < 2 ^ ceil_log_2 a.length - 1) :
    (Segtree.build a op).seg.getD j none
      = opN op ((Segtree.build a op).seg.getD (2 * j + 1) none)
          ((Segtree.build a op).seg.getD (2 * j + 2) none) := by
  have hn : a.length ≤ 2 ^ ceil_log_2 a.length := n_le_pow_ceil a.length
  show (buildUp (opN op) none (2 ^ ceil_log_2 a.length - 1) _).getD _ none = _
  exact buildUp_getD_low _ _ _ _
    (by rw [initLeaves_length, List.length_replicate]; omega) j hj

theorem build_span_leaf {T : Type} (a : List T) (op : T → T → T)
    (p : Nat) (hp : p < 2 ^ ceil_log_2 a.length) :
    (Segtree.build a op).span.getD (2 ^ ceil_log_2 a.length - 1 + p)
        (a.length, a.length)
      = if p < a.length then (p, p + 1) else (a.length, a.length) := by
  have hK : (0:Nat) < 2 ^ ceil_log_2 a.length := Nat.pos_pow_of_pos _ (by omega)
  have hn : a.length ≤ 2 ^ ceil_log_2 a.length := n_le_pow_ceil a.length
  show (buildUp _ (a.length, a.length) (2 ^ ceil_log_2 a.length - 1) _).getD _ _ = _
  rw [buildUp_getD_high _ _ _ _ _ (by omega)]
  rw [initLeaves_getD _ _ _ a 0 _
    (by rw [List.length_replicate]; omega)]
  by_cases hpn : p < a.length
  · rw [if_pos (by constructor <;> omega), if_pos hpn]
    have hidx : 2 ^ ceil_log_2 a.length - 1 + p
        - (2 ^ ceil_log_2 a.length - 1) - 0 = p := by omega
    have hidx2 : 2 ^ ceil_log_2 a.length - 1 + p
        - (2 ^ ceil_log_2 a.length - 1) = p := by omega
    rw [hidx, hidx2]
    obtain ⟨x, hx⟩ : ∃ x, a[p]? = some x :=
      ⟨a[p], List.getElem?_eq_getElem hpn⟩
    rw [hx]
    rfl
  · rw [if_neg (by omega), if_neg hpn]
    rw [getD_replicate, if_pos (by omega)]

theorem build_span_rec {T : Type} (a : List T) (op : T → T → T)
    (j : Nat) (hj : j < 2 ^ ceil_log_2 a.length - 1) :
    (Segtree.build a op).span.getD j (a.length, a.length)
      = (((Segtree.build a op).span.getD (2 * j + 1) (a.length, a.length)).1,
          ((Segtree.build a op).span.getD (2 * j + 2) (a.length, a.length)).2) := by
  have hn : a.length ≤ 2 ^ ceil_log_2 a.length := n_le_pow_ceil a.length
  show (buildUp _ (a.length, a.length) (2 ^ ceil_log_2 a.length - 1) _).getD _ _ = _
  exact buildUp_getD_low _ _ _ _
    (by rw [initLeaves_length, List.length_replicate]; omega) j hj

/-- Lemma: `SegOk` holds across the freshly built tree, with the leaf contents
given by the input array. -/
theorem build_segOk {T : Type} (a : List T) (op : T → T → T)
    {h i lo : Nat} (hn : IsNode (ceil_log_2 a.length) i lo h) :
    SegOk (opN op) (fun p => a[p]?) (Segtree.build a op).seg i lo h :=
  segOk_of_pointwise (build_seg_rec a op) (build_seg_leaf a op) hn

/-- Lemma: `SpanOk` holds across the freshly built tree. -/
theorem build_spanOk {T : Type} (a : List T) (op : T → T → T)
    {h i lo : Nat} (hn : IsNode (ceil_log_2 a.length) i lo h) :
    SpanOk a.length (Segtree.build a op).span i lo h :=
  spanOk_of_pointwise (build_span_rec a op) (build_span_leaf a op) hn

/-- Correctness of the recursive range decomposition: on a subtree whose
`seg`/`span` invariants hold, `_help_me_query` returns the fold of the
values over `[L,R)`, for any in-range query contained in the subtree. -/
theorem helpQuery_correct {T : Type} {st : Segtree T}
    (hl : ∀ x, st.op none x = x) (hr : ∀ x, st.op x none = x)
    (ha : ∀ x y z, st.op (st.op x y) z = st.op x (st.op y z))
    {v : Nat → Option T} (hv : ∀ p, st.n ≤ p → v p = none) :
    ∀ {h : Nat} (fuel : Nat) {i lo L R : Nat},
      SegOk st.op v st.seg i lo h → SpanOk st.n st.span i lo h →
      lo ≤ L → L < R → R ≤ lo + 2 ^ h → R ≤ st.n → h + 1 ≤ fuel →
      helpQuery st fuel L R i = rangeJoin st.op v L R := by
  intro h
  induction h with
  | zero =>
    intro fuel i lo L R hseg hspan hloL hLR hRhi hRn hfuel
    have hLlo : L = lo := by omega
    have hRlo : R = lo + 1 := by simp at hRhi; omega
    have hlon : lo < st.n := by omega
    cases fuel with
    | zero => omega
    | succ f =>
      have hsp : st.span.getD i (st.n, st.n) = (lo, lo + 1) := by
        have := hspan
        show st.span.getD i (st.n, st.n) = _
        rw [show SpanOk st.n st.span i lo 0 =
          (st.span.getD i (st.n, st.n) = if lo < st.n then (lo, lo + 1)
            else (st.n, st.n)) from rfl] at this
        rw [this, if_pos hlon]
      simp only [helpQuery, hsp]
      rw [if_pos (by constructor <;> omega)]
      have hsegv : st.seg.getD i none = v lo := hseg
      rw [hsegv, hLlo, hRlo, rangeJoin_single hl]
  | succ h ih =>
    intro fuel i lo L R hseg hspan hloL hLR hRhi hRn hfuel
    obtain ⟨hseq, hsegL, hsegR⟩ := hseg
    obtain ⟨hspq, hspanL, hspanR⟩ := hspan
    have hlon : lo < st.n := by omega
    have hps : (2:Nat) ^ (h + 1) = 2 ^ h + 2 ^ h := by rw [pow_succ]; ring
    have hval_i : st.span.getD i (st.n, st.n)
        = (min lo st.n, min (lo + 2 ^ (h + 1)) st.n) :=
      spanOk_val ⟨hspq, hspanL, hspanR⟩
    have hval_L : st.span.getD (2 * i + 1) (st.n, st.n)
        = (min lo st.n, min (lo + 2 ^ h) st.n) := spanOk_val hspanL
    have hL0 : (st.span.getD i (st.n, st.n)).1 = lo := by
      rw [hval_i]; simp; omega
    have hR0 : (st.span.getD i (st.n, st.n)).2
        = min (lo + 2 ^ (h + 1)) st.n := by rw [hval_i]
    have hm : (st.span.getD (2 * i + 1) (st.n, st.n)).2
        = min (lo + 2 ^ h) st.n := by rw [hval_L]
    cases fuel with
    | zero => omega
    | succ f =>
      simp only [helpQuery, hL0, hR0, hm]
      by_cases hc1 : L = lo ∧ R = min (lo + 2 ^ (h + 1)) st.n
      · rw [if_pos hc1]
        have hsegv : st.seg.getD i none
            = rangeJoin st.op v lo (lo + 2 ^ (h + 1)) :=
          segOk_val hl hr ha ⟨hseq, hsegL, hsegR⟩
        rw [hsegv, hc1.1, hc1.2]
        rw [@rangeJoin_clamp T st.op hl hr ha v st.n lo (lo + 2 ^ (h + 1)) hv]
      · rw [if_neg hc1]
        by_cases hc2 : R ≤ min (lo + 2 ^ h) st.n
        · rw [if_pos hc2]
          exact ih f hsegL hspanL hloL hLR (by omega) hRn (by omega)
        · rw [if_neg hc2]
          have hmn : min (lo + 2 ^ h) st.n = lo + 2 ^ h := by omega
          by_cases hc3 : min (lo + 2 ^ h) st.n ≤ L
          · rw [if_pos hc3]
            exact ih f hsegR hspanR (by omega) hLR (by omega) hRn (by omega)
          · rw [if_neg hc3]
            rw [ih f hsegL hspanL hloL (by omega) (by omega) (by omega)
              (by omega)]
            rw [ih f hsegR hspanR (by omega) (by omega) (by omega) hRn
              (by omega)]
            rw [← rangeJoin_merge hl hr ha (by omega) (by omega)]

/-! ### Effect of `update`'s leaf write plus ancestor walk -/

/-- After writing leaf `k-1+ind'` and walking up, the leaf layer holds the
updated contents. -/
theorem updUp_set_leaf {T : Type} (op : Option T → Option T → Option T)
    (s : List (Option T)) (K ind' : Nat) (val : T)
    (hlen : s.length = 2 * K - 1) (hind : ind' < K) (hK : 1 ≤ K) :
    ∀ p, p < K →
      (updUp op (s.set (K - 1 + ind') (some val)) (K - 1 + ind')).getD
          (K - 1 + p) none
        = if p = ind' then some val else s.getD (K - 1 + p) none := by
  intro p hp
  have hout : K - 1 + p ∉ parChain (K - 1 + ind') := fun hmem => by
    have := parChain_bound (K - 1 + ind') (K - 1) (by omega) _ hmem
    omega
  rw [updUp_getD_out _ _ _ _ hout]
  by_cases hpe : p = ind'
  · subst hpe
    rw [if_pos rfl]
    exact getD_set_self _ _ _ _ (by omega)
  · rw [if_neg hpe]
    exact getD_set_ne _ _ _ _ _ (by omega)

/-- After writing a leaf and walking up, every internal node again stores
the join of its children. -/
theorem updUp_set_rec {T : Type} (op : Option T → Option T → Option T)
    (s : List (Option T)) (K ind' : Nat) (val : T)
    (hlen : s.length = 2 * K - 1) (hind : ind' < K) (hK : 1 ≤ K)
    (hrec : ∀ j, j < K - 1 →
      s.getD j none = op (s.getD (2 * j + 1) none) (s.getD (2 * j + 2) none)) :
    ∀ j, j < K - 1 →
      (updUp op (s.set (K - 1 + ind') (some val)) (K - 1 + ind')).getD j none
        = op ((updUp op (s.set (K - 1 + ind') (some val))
                (K - 1 + ind')).getD (2 * j + 1) none)
            ((updUp op (s.set (K - 1 + ind') (some val))
                (K - 1 + ind')).getD (2 * j + 2) none) := by
  intro j hj
  by_cases hmem : j ∈ parChain (K - 1 + ind')
  · exact updUp_getD_par op _ _ (by simp only [List.length_set]; omega) j hmem
  · have hcl : ∀ c : Nat, c ≠ 0 → (c - 1) / 2 = j → c ∉ parChain (K - 1 + ind') :=
      fun c hc0 hcj hcm => hmem (hcj ▸ parChain_closed _ c hcm hc0)
    have hj1 : 2 * j + 1 ∉ parChain (K - 1 + ind') :=
      hcl _ (by omega) (by omega)
    have hj2 : 2 * j + 2 ∉ parChain (K - 1 + ind') :=
      hcl _ (by omega) (by omega)
    have hne1 : 2 * j + 1 ≠ K - 1 + ind' := fun he => by
      have : j ∈ parChain (K - 1 + ind') := by
        rw [show j = (K - 1 + ind' - 1) / 2 by omega]
        exact parChain_head _ (by omega)
      exact hmem this
    have hne2 : 2 * j + 2 ≠ K - 1 + ind' := fun he => by
      have : j ∈ parChain (K - 1 + ind') := by
        rw [show j = (K - 1 + ind' - 1) / 2 by omega]
        exact parChain_head _ (by omega)
      exact hmem this
    rw [updUp_getD_out _ _ _ _ hmem, updUp_getD_out _ _ _ _ hj1,
      updUp_getD_out _ _ _ _ hj2]
    rw [getD_set_ne _ _ _ _ _ (by omega), getD_set_ne _ _ _ _ _ hne1,
      getD_set_ne _ _ _ _ _ hne2]
    exact hrec j hj

/-! ### Linking `rangeJoin` over array contents with the spec's left-fold -/

theorem range_map_getElem {T : Type} (a : List T) :
    ∀ (cnt L : Nat), L + cnt ≤ a.length →
      (List.range cnt).map (fun j => a[L + j]?)
        = ((a.drop L).take cnt).map some := by
  intro cnt
  induction cnt with
  | zero => intro L _; simp
  | succ cnt ih =>
    intro L hL
    rw [List.range_succ, List.map_append, ih L (by omega)]
    rw [List.take_succ, List.map_append]
    congr 1
    have h1 : (a.drop L)[cnt]? = a[L + cnt]? := by
      rw [List.getElem?_drop]
    have h2 : a[L + cnt]? = some a[L + cnt] :=
      List.getElem?_eq_getElem (by omega)
    rw [h1, h2]
    simp [h2]

theorem foldl_opN_some {T : Type} (op : T → T → T) :
    ∀ (xs : List T) (acc : T),
      (xs.map some).foldl (opN op) (some acc) = some (xs.foldl op acc) := by
  intro xs
  induction xs with
  | nil => intro acc; rfl
  | cons x t ih =>
    intro acc
    simp only [List.map_cons, List.foldl_cons]
    rw [show opN op (some acc) (some x) = some (op acc x) from rfl, ih]

theorem foldl_opN_listJoin {T : Type} (op : T → T → T) (xs : List T) :
    (xs.map some).foldl (opN op) none = listJoin op xs := by
  cases xs with
  | nil => rfl
  | cons x t =>
    simp only [List.map_cons, List.foldl_cons]
    rw [show opN op none (some x) = some x from rfl, foldl_opN_some]
    rfl

/-- Over the contents of an array, the tree's range fold agrees with the
left-fold of the raw join over the corresponding slice. -/
theorem rangeJoin_eq_listJoin {T : Type} (op : T → T → T) (a : List T)
    (L R : Nat) (hR : R ≤ a.length) :
    rangeJoin (opN op) (fun p => a[p]?) L R
      = listJoin op ((a.drop L).take (R - L)) := by
  by_cases hLR : L ≤ R
  · unfold rangeJoin
    rw [range_map_getElem a (R - L) L (by omega), foldl_opN_listJoin]
  · rw [rangeJoin_empty (by omega), show R - L = 0 by omega]
    simp [listJoin]

/-! ### The `Queue` class (two stacks; Python list top = Lean list head) -/

structure Queue (T : Type) where
  stack_1 : List T
  stack_2 : List T
  n : Nat

/-- Model of `Queue.__init__`. -/
def Queue.empty (T : Type) : Queue T := ⟨[], [], 0⟩

/-- Model of `Queue.enq`: push onto stack 1, count up. -/
def Queue.enq {T : Type} (q : Queue T) (k : T) : Queue T :=
  ⟨k :: q.stack_1, q.stack_2, q.n + 1⟩

/-- The transfer loop inside `deq`: pop stack 1 onto stack 2 until empty. -/
def transfer {T : Type} : List T → List T → List T × List T
  | [], s2 => ([], s2)
  | x :: xs, s2 => transfer xs (x :: s2)

/-- Model of `Queue.deq`.  The outer `Option` is error-tracking: `none` would mean
`stack_2.pop()` ran on an empty list (an exception); the inner `Option T`
is the method's return value (`None` on an empty queue). -/
def Queue.deq {T : Type} (q : Queue T) : Option (Option T × Queue T) :=
  if q.n = 0 then some (none, q)
  else
    match (if q.stack_2.length = 0 then transfer q.stack_1 q.stack_2
           else (q.stack_1, q.stack_2)) with
    | (_, []) => none
    | (s1, y :: ys) => some (some y, ⟨s1, ys, q.n - 1⟩)

/-- Model of `Queue.clear`. -/
def Queue.clear {T : Type} (_q : Queue T) : Queue T := ⟨[], [], 0⟩

/-- Model of `Queue.len`. -/
def Queue.len {T : Type} (q : Queue T) : Nat := q.n

/-- The class invariant of reachable queue states: the count equals the
total number of stacked elements. -/
def Queue.inv {T : Type} (q : Queue T) : Prop :=
  q.n = q.stack_1.length + q.stack_2.length

/-- A sequence of `enq` calls. -/
def enqAll {T : Type} (q : Queue T) (vs : List T) : Queue T :=
  vs.foldl Queue.enq q

/-- Runs `k` consecutive `deq` calls, collecting the returned values (errors
propagate). -/
def deqN {T : Type} : Queue T → Nat → Option (List (Option T) × Queue T)
  | q, 0 => some ([], q)
  | q, k + 1 =>
    (Queue.deq q).bind fun r =>
      (deqN r.2 k).map fun p => (r.1 :: p.1, p.2)

theorem transfer_spec {T : Type} :
    ∀ s1 s2 : List T, transfer s1 s2 = ([], s1.reverse ++ s2) := by
  intro s1
  induction s1 with
  | nil => intro s2; simp [transfer]
  | cons x xs ih => intro s2; simp [transfer, ih]

theorem enqAll_spec {T : Type} :
    ∀ (vs : List T) (q : Queue T),
      enqAll q vs = ⟨vs.reverse ++ q.stack_1, q.stack_2, q.n + vs.length⟩ := by
  intro vs
  induction vs with
  | nil => intro q; simp [enqAll]
  | cons x xs ih =>
    intro q
    show enqAll (Queue.enq q x) xs = _
    rw [ih]
    simp [Queue.enq]
    omega

/-- Draining a queue whose count matches its contents returns the contents
in FIFO order. -/
theorem deqN_drain {T : Type} :
    ∀ (k : Nat) (s1 s2 : List T), s1.length + s2.length = k →
      deqN ⟨s1, s2, k⟩ k
        = some ((s2 ++ s1.reverse).map some, ⟨[], [], 0⟩) := by
  intro k
  induction k with
  | zero =>
    intro s1 s2 hlen
    have h1 : s1 = [] := by
      cases s1 with
      | nil => rfl
      | cons a t => simp at hlen
    have h2 : s2 = [] := by
      cases s2 with
      | nil => rfl
      | cons a t => simp at hlen
    subst h1; subst h2
    rfl
  | succ k ih =>
    intro s1 s2 hlen
    show (Queue.deq ⟨s1, s2, k + 1⟩).bind _ = _
    cases s2 with
    | cons z zs =>
      have hdeq : Queue.deq ⟨s1, z :: zs, k + 1⟩
          = some (some z, ⟨s1, zs, k⟩) := rfl
      rw [hdeq, Option.some_bind]
      rw [ih s1 zs (by simp at hlen; omega)]
      simp
    | nil =>
      have htr : transfer s1 ([] : List T) = ([], s1.reverse) := by
        rw [transfer_spec]; simp
      cases hrev : s1.reverse with
      | nil =>
        exfalso
        have hs1 : s1.length = 0 := by
          rw [← List.length_reverse, hrev]; rfl
        simp at hlen
        omega
      | cons y ys =>
        have hdeq : Queue.deq ⟨s1, [], k + 1⟩
            = some (some y, ⟨[], ys, k⟩) := by
          simp [Queue.deq, htr, hrev]
        rw [hdeq, Option.some_bind]
        have hys : ys.length = k := by
          have hlr : s1.reverse.length = s1.length := List.length_reverse s1
          rw [hrev] at hlr
          simp at hlr hlen
          omega
        rw [show (deqN ⟨([] : List T), ys, k⟩ k) = _ from
          ih [] ys (by simp [hys])]
        simp [hrev]

/-! ### More substring facts (for the error-message claims) -/

theorem hasSub_nil_pat : ∀ t : List Char, hasSub t [] = true
  | [] => rfl
  | _ :: _ => rfl

theorem startsL_append_right :
    ∀ (pat s t : List Char), startsL s pat = true → startsL (s ++ t) pat = true := by
  intro pat
  induction pat with
  | nil => intro s t _; cases s <;> cases t <;> rfl
  | cons b bs ih =>
    intro s t hs
    cases s with
    | nil => simp [startsL] at hs
    | cons a as =>
      simp only [startsL, Bool.and_eq_true] at hs
      simp only [List.cons_append, startsL, Bool.and_eq_true]
      exact ⟨hs.1, ih as t hs.2⟩

theorem hasSub_append_right_of :
    ∀ (s t pat : List Char), hasSub s pat = true → hasSub (s ++ t) pat = true := by
  intro s
  induction s with
  | nil =>
    intro t pat h
    simp only [hasSub] at h
    have : pat = [] := by
      cases pat with
      | nil => rfl
      | cons b bs => simp at h
    subst this
    simpa using hasSub_nil_pat t
  | cons a s' ih =>
    intro t pat h
    simp only [hasSub, Bool.or_eq_true] at h
    rcases h with hst | hsub
    · have := startsL_append_right pat (a :: s') t hst
      cases pat with
      | nil => simpa using hasSub_nil_pat ((a :: s') ++ t)
      | cons b bs =>
        simp only [List.cons_append, hasSub, Bool.or_eq_true]
        left
        simpa using this
    · simp only [List.cons_append, hasSub, Bool.or_eq_true]
      right
      exact ih t pat hsub

theorem strContains_append_left_of (x y pat : String)
    (h : strContains x pat = true) : strContains (x ++ y) pat = true := by
  have hx : (x ++ y).toList = x.toList ++ y.toList := by
    simp [String.toList, String.data_append]
  unfold strContains
  rw [hx]
  exact hasSub_append_right_of _ _ _ h

theorem strContains_append_end (x pat : String) :
    strContains (x ++ pat) pat = true := by
  have hx : (x ++ pat).toList = x.toList ++ pat.toList := by
    simp [String.toList, String.data_append]
  unfold strContains
  rw [hx]
  refine hasSub_append_left _ ?_
  cases hp : pat.toList with
  | nil => rfl
  | cons b bs =>
    have : startsL (b :: bs) (b :: bs) = true := by
      have := startsL_self_append (b :: bs) []
      simpa using this
    simp [hasSub, this]

/-! ### Remaining pieces of the segment-tree model -/

/-- The index normalization `update`/`get` perform: a negative index counts
from the back. -/
def normIdx (n : Nat) (ind : Int) : Int := if ind < 0 then ind + n else ind

/-- The state of the Python object after calling `update` — on success the
updated state, on a raised `IndexError` the untouched one. -/
def updRun {T : Type} (st : Segtree T) (ind : Int) (val : T) : Segtree T :=
  match Segtree.update st ind val with
  | .ok st' => st'
  | .error e => e.2

/-- The documented structural invariant of the tree: every internal node
joins its children in both `seg` and `span`, and every in-range leaf's span
is its singleton interval. -/
def TreeInv {T : Type} (st : Segtree T) : Prop :=
  (∀ i, 2 * i + 2 < st.l →
    st.seg.getD i none
        = st.op (st.seg.getD (2 * i + 1) none) (st.seg.getD (2 * i + 2) none)
      ∧ st.span.getD i (st.n, st.n)
        = ((st.span.getD (2 * i + 1) (st.n, st.n)).1,
            (st.span.getD (2 * i + 2) (st.n, st.n)).2))
  ∧ (∀ idx, idx < st.n →
      st.span.getD (st.l / 2 + idx) (st.n, st.n) = (idx, idx + 1))

/-- Structural well-formedness: the stored length matches the arrays and
the padded leaf count. -/
def WF {T : Type} (st : Segtree T) : Prop :=
  st.l = 2 * 2 ^ ceil_log_2 st.n - 1 ∧ st.seg.length = st.l
    ∧ st.span.length = st.l ∧ st.n ≤ 2 ^ ceil_log_2 st.n

/-! ### The claims -/

/-- C1: for every array of `n ≥ 1` real values, every associative join, and
all integers `0 ≤ L < R ≤ n`, `query(L,R)` on the freshly built segment
tree returns the left-fold of the join over `a[L], …, a[R-1]`. -/
theorem c1_query_correct {T : Type} (a : List T) (op : T → T → T)
    (hassoc : ∀ x y z, op (op x y) z = op x (op y z))
    (L R : Int) (hL : 0 ≤ L) (hLR : L < R) (hR : R ≤ (a.length : Int)) :
    Segtree.query (Segtree.build a op) L R
      = .ok (listJoin op ((a.drop L.toNat).take (R - L).toNat)) := by
  have hn : (Segtree.build a op).n = a.length := rfl
  have hcond : ¬ (L < 0 ∨ R > ((Segtree.build a op).n : Int) ∨ L ≥ R) := by
    rw [hn]; omega
  rw [Segtree.query, if_neg hcond]
  have he1 : a.length ≤ 2 ^ ceil_log_2 a.length := n_le_pow_ceil a.length
  have hfuel : ceil_log_2 a.length + 1 ≤ (Segtree.build a op).l := by
    have h2 : ceil_log_2 a.length + 1 < 2 ^ (ceil_log_2 a.length + 1) :=
      Nat.lt_two_pow _
    have h3 : (2:Nat) ^ (ceil_log_2 a.length + 1)
        = 2 * 2 ^ ceil_log_2 a.length := by rw [pow_succ]; ring
    show _ ≤ 2 * 2 ^ ceil_log_2 a.length - 1
    omega
  have hq := @helpQuery_correct T (Segtree.build a op)
    (fun x => opN_none_left op x) (fun x => opN_none_right op x)
    (opN_assoc hassoc)
    (fun p => a[p]?)
    (fun p hp => List.getElem?_eq_none hp)
    (ceil_log_2 a.length) ((Segtree.build a op).l) 0 0 L.toNat R.toNat
    (build_segOk a op IsNode.root) (build_spanOk a op IsNode.root)
    (Nat.zero_le _) (by omega)
    (by simpa using (by omega : R.toNat ≤ 2 ^ ceil_log_2 a.length))
    (by omega : R.toNat ≤ a.length) hfuel
  rw [hq, build_op]
  rw [rangeJoin_eq_listJoin op a _ _ (by omega)]
  rw [show (R - L).toNat = R.toNat - L.toNat by omega]

/-- C1 witness: a concrete instance. -/
theorem c1_query_correct_witness :
    Segtree.query (Segtree.build [1, 2] (fun x y => x + y)) 0 2
      = .ok (some 3) := by
  have h := c1_query_correct [1, 2] (fun x y => x + y)
    (fun x y z => Nat.add_assoc x y z) 0 2 (by decide) (by decide) (by decide)
  rw [h]
  rfl

/-- A valid `update` on a freshly built tree succeeds and only replaces
`seg` by the leaf-write-plus-ancestor-walk result. -/
theorem build_update_ok {T : Type} (a : List T) (op : T → T → T)
    (ind : Int) (v : T) (h1 : -(a.length : Int) ≤ ind)
    (h2 : ind < (a.length : Int)) :
    Segtree.update (Segtree.build a op) ind v
      = .ok ⟨a.length, opN op,
          updUp (opN op)
            ((Segtree.build a op).seg.set
              (2 ^ ceil_log_2 a.length - 1 + (normIdx a.length ind).toNat)
              (some v))
            (2 ^ ceil_log_2 a.length - 1 + (normIdx a.length ind).toNat),
          (Segtree.build a op).span, 2 * 2 ^ ceil_log_2 a.length - 1⟩ := by
  have hcond : ¬ (ind ≥ ((Segtree.build a op).n : Int)
      ∨ ind < -((Segtree.build a op).n : Int)) := by
    rw [build_n]; omega
  have hK : 1 ≤ 2 ^ ceil_log_2 a.length := Nat.pos_pow_of_pos _ (by omega)
  simp only [Segtree.update, if_neg hcond, build_n, build_op, build_l, normIdx]
  rw [show (2 * 2 ^ ceil_log_2 a.length - 1) / 2
    = 2 ^ ceil_log_2 a.length - 1 by omega]
  rw [if_neg (by omega : ¬ (ind ≥ (a.length : Int) ∨ ind < -(a.length : Int)))]

/-- The leaf layer after a valid update holds the updated array. -/
theorem build_update_leaf {T : Type} (a : List T) (op : T → T → T)
    (ind' : Nat) (v : T) (hind : ind' < a.length) :
    ∀ p, p < 2 ^ ceil_log_2 a.length →
      (updUp (opN op)
          ((Segtree.build a op).seg.set
            (2 ^ ceil_log_2 a.length - 1 + ind') (some v))
          (2 ^ ceil_log_2 a.length - 1 + ind')).getD
          (2 ^ ceil_log_2 a.length - 1 + p) none
        = (a.set ind' v)[p]? := by
  intro p hp
  have hn := n_le_pow_ceil a.length
  rw [updUp_set_leaf (opN op) _ _ _ _ (build_seg_length a op) (by omega)
    (by omega) p hp]
  by_cases hpe : p = ind'
  · subst hpe
    rw [if_pos rfl]
    exact (List.getElem?_set_self (by simpa using hind)).symm
  · rw [if_neg hpe, build_seg_leaf a op p hp]
    exact (List.getElem?_set_ne (fun hh => hpe hh.symm)).symm

/-- Every internal node again joins its children after a valid update. -/
theorem build_update_rec {T : Type} (a : List T) (op : T → T → T)
    (ind' : Nat) (v : T) (hind : ind' < a.length) :
    ∀ j, j < 2 ^ ceil_log_2 a.length - 1 →
      (updUp (opN op)
          ((Segtree.build a op).seg.set
            (2 ^ ceil_log_2 a.length - 1 + ind') (some v))
          (2 ^ ceil_log_2 a.length - 1 + ind')).getD j none
        = opN op
            ((updUp (opN op)
              ((Segtree.build a op).seg.set
                (2 ^ ceil_log_2 a.length - 1 + ind') (some v))
              (2 ^ ceil_log_2 a.length - 1 + ind')).getD (2 * j + 1) none)
            ((updUp (opN op)
              ((Segtree.build a op).seg.set
                (2 ^ ceil_log_2 a.length - 1 + ind') (some v))
              (2 ^ ceil_log_2 a.length - 1 + ind')).getD (2 * j + 2) none) := by
  have hn := n_le_pow_ceil a.length
  exact updUp_set_rec (opN op) _ _ _ _ (build_seg_length a op) (by omega)
    (by omega) (build_seg_rec a op)

/-- Lemma: `SegOk` for the updated contents holds across the updated tree. -/
theorem build_update_segOk {T : Type} (a : List T) (op : T → T → T)
    (ind' : Nat) (v : T) (hind : ind' < a.length)
    {h i lo : Nat} (hnode : IsNode (ceil_log_2 a.length) i lo h) :
    SegOk (opN op) (fun p => (a.set ind' v)[p]?)
      (updUp (opN op)
        ((Segtree.build a op).seg.set
          (2 ^ ceil_log_2 a.length - 1 + ind') (some v))
        (2 ^ ceil_log_2 a.length - 1 + ind')) i lo h :=
  segOk_of_pointwise (build_update_rec a op ind' v hind)
    (build_update_leaf a op ind' v hind) hnode

/-- Lemma: `arr` returns the `map some` of whatever array the leaf layer holds. -/
theorem arr_of_leaves {T : Type} (st : Segtree T) (b : List T)
    (hsl : st.seg.length = 2 * 2 ^ ceil_log_2 st.n - 1)
    (hstl : st.l = 2 * 2 ^ ceil_log_2 st.n - 1)
    (hb : b.length = st.n)
    (hn : st.n ≤ 2 ^ ceil_log_2 st.n)
    (hleaf : ∀ p, p < 2 ^ ceil_log_2 st.n →
      st.seg.getD (2 ^ ceil_log_2 st.n - 1 + p) none = b[p]?) :
    Segtree.arr st = b.map some := by
  have hK : 1 ≤ 2 ^ ceil_log_2 st.n := Nat.pos_pow_of_pos _ (by omega)
  have hdiv : st.l / 2 = 2 ^ ceil_log_2 st.n - 1 := by rw [hstl]; omega
  unfold Segtree.arr
  rw [hdiv]
  refine List.ext_getElem? ?_
  intro j
  by_cases hj : j < st.n
  · rw [List.getElem?_take_of_lt hj, List.getElem?_drop]
    have hin : 2 ^ ceil_log_2 st.n - 1 + j < st.seg.length := by
      rw [hsl]; omega
    have h1 : st.seg[2 ^ ceil_log_2 st.n - 1 + j]?
        = some (st.seg.getD (2 ^ ceil_log_2 st.n - 1 + j) none) := by
      rw [List.getElem?_eq_getElem hin, List.getD_eq_getElem _ _ hin]
    rw [h1, hleaf j (by omega)]
    have hjb : j < b.length := by omega
    rw [List.getElem?_eq_getElem hjb]
    rw [List.getElem?_eq_getElem (by simpa using hjb)]
    simp
  · have hlen1 : ((st.seg.drop (2 ^ ceil_log_2 st.n - 1)).take st.n).length
        = st.n := by
      simp only [List.length_take, List.length_drop, hsl]
      omega
    rw [List.getElem?_eq_none (by omega), List.getElem?_eq_none (by simp; omega)]

/-- Lemma: `get` returns whatever array value the leaf layer holds at the
normalized index. -/
theorem get_of_leaves {T : Type} (st : Segtree T) (b : List T)
    (hstl : st.l = 2 * 2 ^ ceil_log_2 st.n - 1)
    (hn : st.n ≤ 2 ^ ceil_log_2 st.n)
    (hleaf : ∀ p, p < 2 ^ ceil_log_2 st.n →
      st.seg.getD (2 ^ ceil_log_2 st.n - 1 + p) none = b[p]?)
    (ind : Int) (h1 : -(st.n : Int) ≤ ind) (h2 : ind < (st.n : Int)) :
    Segtree.get st ind = .ok (b[(normIdx st.n ind).toNat]?) := by
  have hK : 1 ≤ 2 ^ ceil_log_2 st.n := Nat.pos_pow_of_pos _ (by omega)
  have hdiv : st.l / 2 = 2 ^ ceil_log_2 st.n - 1 := by rw [hstl]; omega
  have hcond : ¬ (ind ≥ (st.n : Int) ∨ ind < -(st.n : Int)) := by omega
  simp only [Segtree.get, if_neg hcond, hdiv, normIdx]
  rw [hleaf ((if ind < 0 then ind + st.n else ind).toNat : Nat) (by split <;> omega)]

/-- Generic form of query correctness: any tree state whose invariants
hold for contents `b` answers queries by the fold over `b`. -/
theorem query_of_ok {T : Type} (st : Segtree T) (op : T → T → T)
    (hassoc : ∀ x y z, op (op x y) z = op x (op y z)) (b : List T)
    (hop : st.op = opN op) (hbn : b.length = st.n)
    (hstl : st.l = 2 * 2 ^ ceil_log_2 st.n - 1)
    (hn : st.n ≤ 2 ^ ceil_log_2 st.n)
    (hseg : SegOk (opN op) (fun p => b[p]?) st.seg 0 0 (ceil_log_2 st.n))
    (hspan : SpanOk st.n st.span 0 0 (ceil_log_2 st.n))
    (L R : Int) (hL : 0 ≤ L) (hLR : L < R) (hR : R ≤ (st.n : Int)) :
    Segtree.query st L R
      = .ok (listJoin op ((b.drop L.toNat).take (R - L).toNat)) := by
  have hcond : ¬ (L < 0 ∨ R > (st.n : Int) ∨ L ≥ R) := by omega
  rw [Segtree.query, if_neg hcond]
  have hfuel : ceil_log_2 st.n + 1 ≤ st.l := by
    have h2 : ceil_log_2 st.n + 1 < 2 ^ (ceil_log_2 st.n + 1) :=
      Nat.lt_two_pow _
    have h3 : (2:Nat) ^ (ceil_log_2 st.n + 1) = 2 * 2 ^ ceil_log_2 st.n := by
      rw [pow_succ]; ring
    rw [hstl]
    omega
  have hq := @helpQuery_correct T st
    (fun x => by rw [hop]; exact opN_none_left op x)
    (fun x => by rw [hop]; exact opN_none_right op x)
    (fun x y z => by rw [hop]; exact opN_assoc hassoc x y z)
    (fun p => b[p]?)
    (fun p hp => List.getElem?_eq_none (by omega))
    (ceil_log_2 st.n) st.l 0 0 L.toNat R.toNat
    (by rw [hop]; exact hseg) hspan
    (Nat.zero_le _) (by omega)
    (by simpa using (by omega : R.toNat ≤ 2 ^ ceil_log_2 st.n))
    (by omega : R.toNat ≤ st.n) hfuel
  rw [hq, hop]
  rw [rangeJoin_eq_listJoin op b _ _ (by omega)]
  rw [show (R - L).toNat = R.toNat - L.toNat by omega]

/-- C2: after a valid `update(ind, v)` on a built tree, `get(ind)` returns
`v`, every valid query folds the join over the array with position
`ind` (normalized) replaced by `v`, `arr()` is exactly that updated array,
and each `get(j)` agrees with it. -/
theorem c2_update_correct {T : Type} (a : List T) (op : T → T → T)
    (hassoc : ∀ x y z, op (op x y) z = op x (op y z))
    (ind : Int) (v : T)
    (h1 : -(a.length : Int) ≤ ind) (h2 : ind < (a.length : Int))
    (st' : Segtree T)
    (hup : Segtree.update (Segtree.build a op) ind v = .ok st') :
    Segtree.get st' ind = .ok (some v)
    ∧ (∀ L R : Int, 0 ≤ L → L < R → R ≤ (a.length : Int) →
        Segtree.query st' L R
          = .ok (listJoin op
              (((a.set (normIdx a.length ind).toNat v).drop L.toNat).take
                (R - L).toNat)))
    ∧ Segtree.arr st' = (a.set (normIdx a.length ind).toNat v).map some
    ∧ (∀ j : Nat, j < a.length →
        Segtree.get st' (j : Int)
          = .ok ((a.set (normIdx a.length ind).toNat v)[j]?)) := by
  have hind : (normIdx a.length ind).toNat < a.length := by
    unfold normIdx; split <;> omega
  rw [build_update_ok a op ind v h1 h2] at hup
  injection hup with hst
  subst hst
  have hn := n_le_pow_ceil a.length
  have hleaf := build_update_leaf a op (normIdx a.length ind).toNat v hind
  refine ⟨?_, ?_, ?_, ?_⟩
  · rw [get_of_leaves _ (a.set (normIdx a.length ind).toNat v) rfl hn hleaf
      ind h1 h2]
    rw [List.getElem?_set_self (by simpa using hind)]
  · intro L R hL hLR hR
    exact query_of_ok _ op hassoc (a.set (normIdx a.length ind).toNat v)
      rfl (by simp) rfl hn
      (build_update_segOk a op (normIdx a.length ind).toNat v hind IsNode.root)
      (build_spanOk a op IsNode.root) L R hL hLR hR
  · exact arr_of_leaves _ (a.set (normIdx a.length ind).toNat v)
      (by rw [updUp_length, List.length_set]; exact build_seg_length a op)
      rfl (by simp) hn hleaf
  · intro j hj
    rw [get_of_leaves _ (a.set (normIdx a.length ind).toNat v) rfl hn hleaf
      (j : Int) (by show -(a.length : Int) ≤ (j : Int); omega)
      (by show (j : Int) < (a.length : Int); omega)]
    have hnj : (normIdx a.length (j : Int)).toNat = j := by
      unfold normIdx
      rw [if_neg (by omega)]
      omega
    rw [hnj]

/-- C2 witness: a concrete instance, with the resulting state written as
the Python object after the call. -/
theorem c2_update_correct_witness :
    Segtree.get (updRun (Segtree.build [1, 2, 3] (fun x y => x + y)) 1 5) 1
        = .ok (some 5)
    ∧ Segtree.arr (updRun (Segtree.build [1, 2, 3] (fun x y => x + y)) 1 5)
        = [some 1, some 5, some 3] := by
  have h := c2_update_correct [1, 2, 3] (fun x y => x + y)
    (fun x y z => Nat.add_assoc x y z) 1 5 (by decide) (by decide)
    (updRun (Segtree.build [1, 2, 3] (fun x y => x + y)) 1 5) rfl
  refine ⟨h.1, ?_⟩
  rw [h.2.2.1]
  rfl

/-- C3: `query` errors exactly when `L < 0 ∨ R > n ∨ L ≥ R`; `update` and
`get` error exactly when the normalized index falls outside `[0, n)`; and a
failed `update` leaves the structure untouched. -/
theorem c3_error_conditions {T : Type} :
    (∀ (st : Segtree T) (L R : Int),
      isErr (Segtree.query st L R) = true ↔ (L < 0 ∨ R > (st.n : Int) ∨ L ≥ R))
    ∧ (∀ (st : Segtree T) (ind : Int) (val : T),
        isErr (Segtree.update st ind val) = true ↔
          (normIdx st.n ind < 0 ∨ normIdx st.n ind ≥ (st.n : Int)))
    ∧ (∀ (st : Segtree T) (ind : Int) (val : T) (e : PyError) (st' : Segtree T),
        Segtree.update st ind val = .error (e, st') → st' = st)
    ∧ (∀ (st : Segtree T) (ind : Int),
        isErr (Segtree.get st ind) = true ↔
          (normIdx st.n ind < 0 ∨ normIdx st.n ind ≥ (st.n : Int))) := by
  have hnormiff : ∀ (n : Nat) (ind : Int),
      (ind ≥ (n : Int) ∨ ind < -(n : Int)) ↔
        (normIdx n ind < 0 ∨ normIdx n ind ≥ (n : Int)) := by
    intro n ind
    unfold normIdx
    by_cases h : ind < 0
    · rw [if_pos h]; omega
    · rw [if_neg h]; omega
  refine ⟨?_, ?_, ?_, ?_⟩
  · intro st L R
    rw [Segtree.query]
    by_cases hc : L < 0 ∨ R > (st.n : Int) ∨ L ≥ R
    · rw [if_pos hc]; simpa [isErr] using hc
    · rw [if_neg hc]; simp [isErr, hc]
  · intro st ind val
    rw [Segtree.update, ← hnormiff st.n ind]
    by_cases hc : ind ≥ (st.n : Int) ∨ ind < -(st.n : Int)
    · rw [if_pos hc]; simpa [isErr] using hc
    · rw [if_neg hc]; simp [isErr, hc]
  · intro st ind val e st' hupd
    rw [Segtree.update] at hupd
    by_cases hc : ind ≥ (st.n : Int) ∨ ind < -(st.n : Int)
    · rw [if_pos hc] at hupd
      injection hupd with hpair
      exact (congrArg Prod.snd hpair).symm
    · rw [if_neg hc] at hupd
      exact Except.noConfusion hupd
  · intro st ind
    rw [Segtree.get, ← hnormiff st.n ind]
    by_cases hc : ind ≥ (st.n : Int) ∨ ind < -(st.n : Int)
    · rw [if_pos hc]; simpa [isErr] using hc
    · rw [if_neg hc]; simp [isErr, hc]

/-- C3 witness: `query(-1, 1)` on a one-element tree errors, and a failed
`update(5, 7)` returns the tree unchanged. -/
theorem c3_error_conditions_witness :
    isErr (Segtree.query (Segtree.build ([5] : List Nat) (fun x y => x + y))
        (-1) 1) = true
    ∧ Segtree.build ([5] : List Nat) (fun x y => x + y)
        = Segtree.build ([5] : List Nat) (fun x y => x + y) := by
  refine ⟨?_, ?_⟩
  · exact ((@c3_error_conditions Nat).1 _ (-1) 1).mpr (by left; decide)
  · exact (@c3_error_conditions Nat).2.2.1 _ 5 7
      (.indexError (indexMsg 5)) _ rfl

/-- C6: for `-n ≤ ind < 0`, `update(ind, v)` produces the same result
(state included) as `update(ind + n, v)`, and likewise for `get`. -/
theorem c6_wraparound {T : Type} (st : Segtree T) (ind : Int) (v : T)
    (h1 : -(st.n : Int) ≤ ind) (h2 : ind < 0) :
    Segtree.update st ind v = Segtree.update st (ind + st.n) v
    ∧ Segtree.get st ind = Segtree.get st (ind + st.n) := by
  have hcA : ¬ (ind ≥ (st.n : Int) ∨ ind < -(st.n : Int)) := by omega
  have hcB : ¬ (ind + st.n ≥ (st.n : Int) ∨ ind + st.n < -(st.n : Int)) := by
    omega
  constructor
  · simp only [Segtree.update, if_neg hcA, if_neg hcB, if_pos h2,
      if_neg (by omega : ¬ ind + (st.n : Int) < 0)]
  · simp only [Segtree.get, if_neg hcA, if_neg hcB, if_pos h2,
      if_neg (by omega : ¬ ind + (st.n : Int) < 0)]

/-- C6 witness: `update(-1, 7)` coincides with `update(n-1, 7)` on a
two-element tree. -/
theorem c6_wraparound_witness :
    Segtree.update (Segtree.build [1, 2] (fun x y => x + y)) (-1) 7
      = Segtree.update (Segtree.build [1, 2] (fun x y => x + y))
          ((-1) + (Segtree.build [1, 2] (fun x y => x + y)).n) 7 := by
  exact (c6_wraparound _ (-1) 7 (by decide) (by decide)).1

/-- C4: enqueuing `v1, …, vk` into an empty queue and then dequeuing `k`
times yields `v1, …, vk` in order (and no call errors). -/
theorem c4_queue_fifo {T : Type} (vs : List T) :
    (deqN (enqAll (Queue.empty T) vs) vs.length).map Prod.fst
      = some (vs.map some) := by
  rw [enqAll_spec]
  simp only [Queue.empty, List.append_nil, Nat.zero_add]
  rw [deqN_drain vs.length vs.reverse [] (by simp)]
  simp

/-- C8: dequeuing an empty queue returns the explicit `None` result and
leaves the queue unchanged; under the class invariant (which holds for the
empty queue and is preserved by every operation) no operation errors. -/
theorem c8_queue_no_errors {T : Type} :
    (∀ q : Queue T, q.n = 0 → Queue.deq q = some (none, q))
    ∧ Queue.inv (Queue.empty T)
    ∧ (∀ (q : Queue T) (k : T), Queue.inv q → Queue.inv (Queue.enq q k))
    ∧ (∀ q : Queue T, Queue.inv q → (Queue.deq q).isSome = true)
    ∧ (∀ (q : Queue T) (r : Option T) (q' : Queue T),
        Queue.inv q → Queue.deq q = some (r, q') → Queue.inv q')
    ∧ (∀ q : Queue T, Queue.inv (Queue.clear q)) := by
  refine ⟨?_, ?_, ?_, ?_, ?_, ?_⟩
  · intro q h
    rw [Queue.deq, if_pos h]
  · exact rfl
  · intro q k h
    simp only [Queue.inv, Queue.enq] at h ⊢
    simp [h]
    omega
  · intro q hinv
    rcases q with ⟨s1, s2, n⟩
    simp only [Queue.inv] at hinv
    rw [Queue.deq]
    by_cases hn0 : n = 0
    · rw [if_pos hn0]; rfl
    · rw [if_neg hn0]
      cases s2 with
      | cons z zs => rfl
      | nil =>
        cases s1 with
        | nil => simp at hinv; omega
        | cons x xs =>
          have htr : transfer (x :: xs) ([] : List T)
              = ([], (x :: xs).reverse) := by rw [transfer_spec]; simp
          obtain ⟨y, ys, hrev⟩ : ∃ y ys, (x :: xs).reverse = y :: ys := by
            cases hr : (x :: xs).reverse with
            | nil =>
              exact absurd (congrArg List.length hr) (by simp)
            | cons y ys => exact ⟨y, ys, rfl⟩
          simp [htr, hrev]
  · intro q r q' hinv hdeq
    rcases q with ⟨s1, s2, n⟩
    simp only [Queue.inv] at hinv
    rw [Queue.deq] at hdeq
    by_cases hn0 : n = 0
    · rw [if_pos hn0] at hdeq
      have hq' : q' = ⟨s1, s2, n⟩ :=
        (congrArg Prod.snd (Option.some.inj hdeq)).symm
      subst hq'
      exact hinv
    · rw [if_neg hn0] at hdeq
      cases s2 with
      | cons z zs =>
        have h2 : (some (some z, ⟨s1, zs, n - 1⟩)
            : Option (Option T × Queue T)) = some (r, q') := hdeq
        have hq' : q' = ⟨s1, zs, n - 1⟩ :=
          (congrArg Prod.snd (Option.some.inj h2)).symm
        subst hq'
        simp only [Queue.inv]
        simp at hinv
        omega
      | nil =>
        cases s1 with
        | nil => simp at hinv; omega
        | cons x xs =>
          have h2 : (match transfer (x :: xs) [] with
              | (_, []) => none
              | (s1', y :: ys) => some (some y, ⟨s1', ys, n - 1⟩)) =
                some (r, q') := hdeq
          rw [transfer_spec] at h2
          obtain ⟨y, ys, hrev⟩ : ∃ y ys, (x :: xs).reverse = y :: ys := by
            cases hr : (x :: xs).reverse with
            | nil =>
              exact absurd (congrArg List.length hr) (by simp)
            | cons y ys => exact ⟨y, ys, rfl⟩
          rw [List.append_nil, hrev] at h2
          have hq' : q' = ⟨[], ys, n - 1⟩ :=
            (congrArg Prod.snd (Option.some.inj h2)).symm
          subst hq'
          simp only [Queue.inv]
          have hlen : ys.length + 1 = xs.length + 1 := by
            have := congrArg List.length hrev
            simpa using this.symm
          simp at hinv
          simp
          omega
  · intro q
    exact rfl

/-- C8 witness: the empty queue dequeues to `None` without erroring, and a
dequeue after one enqueue does not error either. -/
theorem c8_queue_no_errors_witness :
    Queue.deq (Queue.empty Nat) = some (none, Queue.empty Nat)
    ∧ (Queue.deq (Queue.enq (Queue.empty Nat) 3)).isSome = true := by
  refine ⟨(@c8_queue_no_errors Nat).1 (Queue.empty Nat) rfl, ?_⟩
  exact (@c8_queue_no_errors Nat).2.2.2.1 _
    ((@c8_queue_no_errors Nat).2.2.1 _ 3 (@c8_queue_no_errors Nat).2.1)

/-- C7: for `n ≥ 1`, the padded leaf count `k = 2^ceil_log_2(n)` is the
least power of two `≥ n`, `ceil_log_2` agrees with `⌈log₂⌉`, and both node
arrays have length `2k - 1`. -/
theorem c7_padding {T : Type} (a : List T) (op : T → T → T)
    (h : 1 ≤ a.length) :
    a.length ≤ 2 ^ ceil_log_2 a.length
    ∧ (∀ m : Nat, a.length ≤ 2 ^ m → 2 ^ ceil_log_2 a.length ≤ 2 ^ m)
    ∧ ceil_log_2 a.length = Nat.clog 2 a.length
    ∧ (Segtree.build a op).seg.length = 2 * 2 ^ ceil_log_2 a.length - 1
    ∧ (Segtree.build a op).span.length = 2 * 2 ^ ceil_log_2 a.length - 1 := by
  obtain ⟨hle, hlt⟩ := ceil_log_2_spec a.length h
  refine ⟨hle, ?_, ceil_log_2_eq_clog a.length h, build_seg_length a op,
    build_span_length a op⟩
  intro m hm
  have h3 : (2:Nat) ^ ceil_log_2 a.length < 2 ^ (m + 1) := by
    calc (2:Nat) ^ ceil_log_2 a.length < 2 * a.length := hlt
    _ ≤ 2 * 2 ^ m := by omega
    _ = 2 ^ (m + 1) := by rw [pow_succ]; ring
  have h4 := (Nat.pow_lt_pow_iff_right (by norm_num : 1 < 2)).mp h3
  exact Nat.pow_le_pow_right (by norm_num) (by omega)

/-- C7 witness: concrete instance with three elements. -/
theorem c7_padding_witness :
    (2:Nat) ^ ceil_log_2 [1, 2, 3].length ≤ 2 ^ 2
    ∧ (Segtree.build [1, 2, 3] (fun x y => x + y)).seg.length
        = 2 * 2 ^ ceil_log_2 [1, 2, 3].length - 1 := by
  have h := c7_padding [1, 2, 3] (fun x y => x + y) (by decide)
  exact ⟨h.2.1 2 (by decide), h.2.2.2.1⟩

/-- Building from the empty array yields the degenerate one-node tree. -/
theorem build_nil_state {T : Type} (op : T → T → T) :
    Segtree.build ([] : List T) op = ⟨0, opN op, [none], [(0, 0)], 1⟩ := by
  unfold Segtree.build
  simp only [List.length_nil, ceil_log_2_zero, pow_zero]
  norm_num
  exact ⟨rfl, rfl⟩

/-- C10: with `n = 0` construction succeeds with a single absent node of
span `[0,0)`, every `query`/`update`/`get` call raises an `IndexError`
leaving the structure unchanged, and `arr()` is empty. -/
theorem c10_empty_tree {T : Type} (op : T → T → T) :
    (Segtree.build ([] : List T) op).l = 1
    ∧ (Segtree.build ([] : List T) op).seg = [none]
    ∧ (Segtree.build ([] : List T) op).span = [(0, 0)]
    ∧ (∀ L R : Int, Segtree.query (Segtree.build ([] : List T) op) L R
        = .error (.indexError (queryMsg L R 0)))
    ∧ (∀ (ind : Int) (v : T),
        Segtree.update (Segtree.build ([] : List T) op) ind v
          = .error (.indexError (indexMsg ind), Segtree.build ([] : List T) op))
    ∧ (∀ ind : Int, Segtree.get (Segtree.build ([] : List T) op) ind
        = .error (.indexError (indexMsg ind)))
    ∧ Segtree.arr (Segtree.build ([] : List T) op) = [] := by
  have hb := build_nil_state op
  refine ⟨by rw [hb], by rw [hb], by rw [hb], ?_, ?_, ?_, ?_⟩
  · intro L R
    have hc : L < 0 ∨ R > ((Segtree.build ([] : List T) op).n : Int) ∨ L ≥ R := by
      rw [build_n]; simp; omega
    rw [Segtree.query, if_pos hc]
    rfl
  · intro ind v
    have hc : ind ≥ ((Segtree.build ([] : List T) op).n : Int)
        ∨ ind < -((Segtree.build ([] : List T) op).n : Int) := by
      rw [build_n]; simp; omega
    rw [Segtree.update, if_pos hc]
  · intro ind
    have hc : ind ≥ ((Segtree.build ([] : List T) op).n : Int)
        ∨ ind < -((Segtree.build ([] : List T) op).n : Int) := by
      rw [build_n]; simp; omega
    rw [Segtree.get, if_pos hc]
  · rw [Segtree.arr, hb]
    rfl

theorem build_wf {T : Type} (a : List T) (op : T → T → T) :
    WF (Segtree.build a op) :=
  ⟨build_l a op, build_seg_length a op, build_span_length a op,
    n_le_pow_ceil a.length⟩

theorem build_treeInv {T : Type} (a : List T) (op : T → T → T) :
    TreeInv (Segtree.build a op) := by
  have hn := n_le_pow_ceil a.length
  have hK : 1 ≤ 2 ^ ceil_log_2 a.length := Nat.pos_pow_of_pos _ (by omega)
  constructor
  · intro i hi
    have hi' : i < 2 ^ ceil_log_2 a.length - 1 := by
      rw [build_l] at hi
      omega
    exact ⟨build_seg_rec a op i hi', build_span_rec a op i hi'⟩
  · intro idx hidx
    have hidx' : idx < a.length := hidx
    have hdiv : (Segtree.build a op).l / 2 = 2 ^ ceil_log_2 a.length - 1 := by
      rw [build_l]; omega
    rw [hdiv]
    show (Segtree.build a op).span.getD
      (2 ^ ceil_log_2 a.length - 1 + idx) (a.length, a.length) = (idx, idx + 1)
    rw [build_span_leaf a op idx (by omega), if_pos hidx']

/-- One `update` call (in Python semantics: the object state after the
call, raised or not) preserves well-formedness and the tree invariant. -/
theorem update_preserves_inv {T : Type} (st : Segtree T) (ind : Int) (v : T)
    (hwf : WF st) (hinv : TreeInv st) :
    WF (updRun st ind v) ∧ TreeInv (updRun st ind v) := by
  obtain ⟨hl, hsl, hpl, hnk⟩ := hwf
  have hK : 1 ≤ 2 ^ ceil_log_2 st.n := Nat.pos_pow_of_pos _ (by omega)
  unfold updRun Segtree.update
  by_cases hc : ind ≥ (st.n : Int) ∨ ind < -(st.n : Int)
  · rw [if_pos hc]
    exact ⟨⟨hl, hsl, hpl, hnk⟩, hinv⟩
  · rw [if_neg hc]
    have hdiv : st.l / 2 = 2 ^ ceil_log_2 st.n - 1 := by rw [hl]; omega
    rw [hdiv]
    have hind : (if ind < 0 then ind + st.n else ind).toNat < st.n := by
      split <;> omega
    have hsl2 : st.seg.length = 2 * 2 ^ ceil_log_2 st.n - 1 := by
      rw [hsl, hl]
    have hrec : ∀ j, j < 2 ^ ceil_log_2 st.n - 1 →
        st.seg.getD j none
          = st.op (st.seg.getD (2 * j + 1) none)
              (st.seg.getD (2 * j + 2) none) := by
      intro j hj
      exact (hinv.1 j (by rw [hl]; omega)).1
    constructor
    · refine ⟨hl, ?_, hpl, hnk⟩
      show (updUp st.op _ _).length = st.l
      rw [updUp_length, List.length_set, hsl]
    · constructor
      · intro i hi
        have hi2 : 2 * i + 2 < st.l := hi
        have hi' : i < 2 ^ ceil_log_2 st.n - 1 := by rw [hl] at hi2; omega
        refine ⟨?_, (hinv.1 i hi2).2⟩
        exact updUp_set_rec st.op st.seg (2 ^ ceil_log_2 st.n)
          (if ind < 0 then ind + st.n else ind).toNat v hsl2 (by omega) hK
          hrec i hi'
      · intro idx hidx
        exact hinv.2 idx hidx

/-- Applying a list of `update` calls in sequence. -/
def applyUpdates {T : Type} (st : Segtree T) (us : List (Int × T)) :
    Segtree T :=
  us.foldl (fun s p => updRun s p.1 p.2) st

/-- C5: after construction and after every update call, every internal
node of `seg` is the `None`-tolerant join of its children, every internal
node of `span` is `[left.L, right.R)`, and every in-range leaf's span is
its singleton interval. -/
theorem c5_invariants {T : Type} (a : List T) (op : T → T → T)
    (us : List (Int × T)) :
    TreeInv (applyUpdates (Segtree.build a op) us) := by
  suffices h : ∀ st : Segtree T, WF st → TreeInv st →
      WF (applyUpdates st us) ∧ TreeInv (applyUpdates st us) by
    exact (h (Segtree.build a op) (build_wf a op) (build_treeInv a op)).2
  induction us with
  | nil => intro st h1 h2; exact ⟨h1, h2⟩
  | cons u rest ih =>
    intro st h1 h2
    show WF (applyUpdates (updRun st u.1 u.2) rest)
      ∧ TreeInv (applyUpdates (updRun st u.1 u.2) rest)
    obtain ⟨h1', h2'⟩ := update_preserves_inv st u.1 u.2 h1 h2
    exact ih _ h1' h2'

theorem queryMsg_contains (L R : Int) (n : Nat) :
    strContains (queryMsg L R n) (toString L) = true
    ∧ strContains (queryMsg L R n) (toString R) = true
    ∧ strContains (queryMsg L R n) (toString n) = true := by
  unfold queryMsg
  refine ⟨?_, ?_, ?_⟩
  · exact strContains_append_left_of _ _ _ (strContains_append_left_of _ _ _
      (strContains_append_left_of _ _ _ (strContains_append_left_of _ _ _
        (strContains_append_left_of _ _ _ (strContains_append_end _ _)))))
  · exact strContains_append_left_of _ _ _ (strContains_append_left_of _ _ _
      (strContains_append_left_of _ _ _ (strContains_append_end _ _)))
  · exact strContains_append_left_of _ _ _ (strContains_append_end _ _)

theorem indexMsg_contains (ind : Int) :
    strContains (indexMsg ind) (toString ind) = true := by
  unfold indexMsg
  exact strContains_append_end _ _

/-- C9 (amended): every error raised by `query`, `update` or `get` is an
`IndexError` (not a generic failure); `query`'s message carries the
supplied `L`, `R` and the size `n`, while `update`'s and `get`'s messages
carry the supplied index but not, in general, the size. -/
theorem c9_error_messages {T : Type} :
    (∀ (st : Segtree T) (L R : Int) (e : PyError),
      Segtree.query st L R = .error e →
        e = .indexError (queryMsg L R st.n)
        ∧ strContains (queryMsg L R st.n) (toString L) = true
        ∧ strContains (queryMsg L R st.n) (toString R) = true
        ∧ strContains (queryMsg L R st.n) (toString st.n) = true)
    ∧ (∀ (st : Segtree T) (ind : Int) (v : T) (e : PyError) (st' : Segtree T),
        Segtree.update st ind v = .error (e, st') →
          e = .indexError (indexMsg ind)
          ∧ strContains (indexMsg ind) (toString ind) = true)
    ∧ (∀ (st : Segtree T) (ind : Int) (e : PyError),
        Segtree.get st ind = .error e →
          e = .indexError (indexMsg ind)
          ∧ strContains (indexMsg ind) (toString ind) = true) := by
  refine ⟨?_, ?_, ?_⟩
  · intro st L R e h
    rw [Segtree.query] at h
    by_cases hc : L < 0 ∨ R > (st.n : Int) ∨ L ≥ R
    · rw [if_pos hc] at h
      injection h with he
      exact ⟨he.symm, (queryMsg_contains L R st.n).1,
        (queryMsg_contains L R st.n).2.1, (queryMsg_contains L R st.n).2.2⟩
    · rw [if_neg hc] at h
      exact Except.noConfusion h
  · intro st ind v e st' h
    rw [Segtree.update] at h
    by_cases hc : ind ≥ (st.n : Int) ∨ ind < -(st.n : Int)
    · rw [if_pos hc] at h
      injection h with he
      exact ⟨(congrArg Prod.fst he).symm, indexMsg_contains ind⟩
    · rw [if_neg hc] at h
      exact Except.noConfusion h
  · intro st ind e h
    rw [Segtree.get] at h
    by_cases hc : ind ≥ (st.n : Int) ∨ ind < -(st.n : Int)
    · rw [if_pos hc] at h
      injection h with he
      exact ⟨he.symm, indexMsg_contains ind⟩
    · rw [if_neg hc] at h
      exact Except.noConfusion h

/-- C9 witness: a failing query on a one-element tree carries `L`, `R`
and `n` in its message; a failing `get` carries the index. -/
theorem c9_error_messages_witness :
    strContains (queryMsg (-1) 5 1) (toString (1 : Nat)) = true
    ∧ strContains (indexMsg 5) (toString (5 : Int)) = true := by
  refine ⟨?_, ?_⟩
  · exact ((@c9_error_messages Nat).1
      (Segtree.build [9] (fun x y => x + y)) (-1) 5
      (.indexError (queryMsg (-1) 5 1)) rfl).2.2.2
  · exact ((@c9_error_messages Nat).2.2
      (Segtree.build [9] (fun x y => x + y)) 5
      (.indexError (indexMsg 5)) rfl).2

/-- C9 counterexample: the message of the `IndexError` raised by
`get(10)` on a 5-element tree does not mention the size 5. -/
theorem c9_counterexample :
    Segtree.get (Segtree.build ([0, 0, 0, 0, 0] : List Nat)
        (fun x y => x + y)) 10
      = .error (.indexError "Getting from index out of range: ind = 10")
    ∧ strContains "Getting from index out of range: ind = 10"
        (toString (Segtree.build ([0, 0, 0, 0, 0] : List Nat)
          (fun x y => x + y)).n) = false := by
  constructor
  · rfl
  · decide
